import Mathlib

/-!
Verification of `mixinforge`'s serialization and traversal engines.

The development shallowly embeds the two algorithmic cores of the repository:

* `src/mixinforge/utility_functions/json_processor.py` — the JSON-compatible
  serializer (`_to_serializable_dict`, `_from_serializable_dict`,
  `_recreate_object`, `dumpjs`/`loadjs`);
* `src/mixinforge/utility_functions/nested_collections_transformer.py` — the
  cycle-safe transformer (`_ObjectReconstructor`,
  `transform_instances_inside_composite_object`);
* `src/mixinforge/utility_functions/nested_collections_inspector.py` — the
  stack-based traversal (`_traverse`, `flatten_nested_collection`,
  `find_instances_inside_composite_object`).

Recursive Python functions are rendered as fuel-indexed Lean functions
(structural recursion on a `Nat` fuel argument), so every definition is
executable and kernel-reducible; fuel exhaustion is a distinguished outcome
that never occurs for the inputs of the theorems below.  Python object
identity, where it matters (cycle detection, identity-based deduplication,
sharing preservation), is modelled with explicit heaps of numbered cells.
-/

namespace Mixinforge

/-!
Marker strings used by the serializer, copied from `_Markers` in
`json_processor.py`.
-/
namespace Markers

def DICT : String := "..dict.."
def TUPLE : String := "..tuple.."
def SET : String := "..set.."
def CLASS : String := "..class.."
def MODULE : String := "..module.."
def PARAMS : String := "..params.."
def STATE : String := "..state.."
def ENUM : String := "..enum.."

end Markers

/-! ## Tree model of the serializer (acyclic object graphs)

`PValue` is the grammar of Python values named by claim C1: JSON primitives,
the built-in containers, and custom objects that are serialized through their
parameter capability (`get_params`), their state capability
(`__getstate__`/`__setstate__`), or as `Enum` members.  Values in this
grammar are trees, hence acyclic, so `_to_serializable_dict`'s `seen` set can
never fire on them and is not modelled here (the heap model `serHeap` below
models it).  Python `float` values pass through both directions unchanged
exactly like the other primitives and are omitted from the grammar.

Dictionary keys are *not* serialized by the source code — they are placed
into the JSON object directly — so the model keeps them as a separate key
type `PKey` covering the string and integer keys used by the theorems. -/

/-- Dictionary key: Python `str` or `int` keys (the key kinds exercised by
the claims; `json.dumps` coerces non-string keys to strings). -/
inductive PKey where
  | kstr (s : String)
  | kint (n : Int)
deriving DecidableEq, Repr, BEq

/-- Python value grammar of claim C1: JSON primitives, built-in containers
and custom objects reconstructible from parameters, state or enum membership,
without cycles.
`objP m c ps` is an instance of class `c` from module `m` exposing
`get_params() = ps` and reconstructible as `cls(**ps)` (the Parameterizable
collaborator contract); `objS m c st` exposes `__getstate__() = st` and
`__setstate__`; `enum m c member` is an `Enum` member. -/
inductive PValue where
  | none
  | bool (b : Bool)
  | int (n : Int)
  | str (s : String)
  | list (xs : List PValue)
  | tuple (xs : List PValue)
  | set (xs : List PValue)
  | dict (kvs : List (PKey × PValue))
  | objP (m c : String) (params : List (PKey × PValue))
  | objS (m c : String) (st : PValue)
  | enum (m c member : String)

/-- JSON tree: the output language of `_to_serializable_dict` (what
`json.dumps` receives).  Keys of JSON objects are `PKey` because the source
passes dictionary keys through unserialized; `json.dumps` then coerces
integer keys to strings (`jsonKeyCoerce`). -/
inductive JTree where
  | null
  | bool (b : Bool)
  | int (n : Int)
  | str (s : String)
  | arr (ts : List JTree)
  | obj (kvs : List (PKey × JTree))

/-- Errors raised by the modelled serializer/deserializer.  `fuelOut` is the
model artifact for exceeding the fuel bound; it never occurs in the theorems'
runs. -/
inductive SerErr where
  | typeError (msg : String)
  | importError (msg : String)
  | recursionError (msg : String)
  | fuelOut
deriving DecidableEq, Repr

/-- Sequencing helper: serialize every element of a list, propagating the
first error (the list comprehensions of the source). -/
def mapExc (g : α → Except SerErr β) : List α → Except SerErr (List β)
  | [] => .ok []
  | x :: xs => do
    let y ← g x
    let ys ← mapExc g xs
    .ok (y :: ys)

/-- Sequencing helper for `Option`-valued element processing. -/
def mapOpt (g : α → Option β) : List α → Option (List β)
  | [] => some []
  | x :: xs => do
    let y ← g x
    let ys ← mapOpt g xs
    some (y :: ys)

/-- Model of `_to_serializable_dict` on the acyclic tree grammar, with fuel.
Branches follow the source's dispatch order: primitives pass through;
`get_params` objects are checked before the container branches; then list,
tuple, set, dict, `Enum`, `__getstate__`.  `_process_state` is inlined: it
wraps a recursively serialized state under
`(CLASS, MODULE, marker)`.  On this grammar the cycle guard never fires
(trees are acyclic) and no unsupported type occurs, so the function never
raises; fuel exhaustion is the only error. -/
def toSerializableDict : Nat → PValue → Except SerErr JTree
  | 0, _ => .error .fuelOut
  | f + 1, v =>
    match v with
    | .none => .ok .null
    | .bool b => .ok (.bool b)
    | .int n => .ok (.int n)
    | .str s => .ok (.str s)
    | .objP m c ps => do
      let payload ← toSerializableDict f (.dict ps)
      .ok (.obj [(.kstr Markers.CLASS, .str c), (.kstr Markers.MODULE, .str m),
                 (.kstr Markers.PARAMS, payload)])
    | .list xs => do
      let ts ← mapExc (toSerializableDict f) xs
      .ok (.arr ts)
    | .tuple xs => do
      let ts ← mapExc (toSerializableDict f) xs
      .ok (.obj [(.kstr Markers.TUPLE, .arr ts)])
    | .set xs => do
      let ts ← mapExc (toSerializableDict f) xs
      .ok (.obj [(.kstr Markers.SET, .arr ts)])
    | .dict kvs => do
      let ts ← mapExc (fun kv : PKey × PValue => do
          let t ← toSerializableDict f kv.2
          .ok (kv.1, t)) kvs
      .ok (.obj [(.kstr Markers.DICT, .obj ts)])
    | .enum m c member =>
      .ok (.obj [(.kstr Markers.ENUM, .str member), (.kstr Markers.CLASS, .str c),
                 (.kstr Markers.MODULE, .str m)])
    | .objS m c st => do
      let payload ← toSerializableDict f st
      .ok (.obj [(.kstr Markers.CLASS, .str c), (.kstr Markers.MODULE, .str m),
                 (.kstr Markers.STATE, payload)])

/-- Model of the `json.dumps`/`json.loads` round trip performed by
`dumpjs`/`loadjs`.  On the JSON-only trees produced by the serializer it is
the identity except on object keys: JSON object keys are strings, so
`json.dumps` coerces an integer key `n` to the string `str(n)`. -/
def jsonKeyCoerce : Nat → JTree → Option JTree
  | 0, _ => Option.none
  | f + 1, t =>
    match t with
    | .null => some .null
    | .bool b => some (.bool b)
    | .int n => some (.int n)
    | .str s => some (.str s)
    | .arr ts => do
      let ts' ← mapOpt (jsonKeyCoerce f) ts
      some (.arr ts')
    | .obj kvs => do
      let kvs' ← mapOpt (fun kv : PKey × JTree => do
        let v' ← jsonKeyCoerce f kv.2
        some (match kv.1 with
              | .kstr s => (PKey.kstr s, v')
              | .kint n => (PKey.kstr (toString n), v'))) kvs
      some (.obj kvs')

/-- Look a marker key up in a serialized JSON object: the membership test of
the Python `match` patterns such as `case {_Markers.TUPLE: val}`. -/
def getKey : List (PKey × JTree) → String → Option JTree
  | [], _ => Option.none
  | (PKey.kstr s, t) :: rest, k => if s = k then some t else getKey rest k
  | (PKey.kint _, _) :: rest, k => getKey rest k

/-- Check that every key of a deserialized mapping is a string: `cls(**d)`
requires string keywords. -/
def allStrKeys (kvs : List (PKey × PValue)) : Bool :=
  kvs.all (fun kv => match kv.1 with | .kstr _ => true | .kint _ => false)

/-- Model of `_from_serializable_dict` (with `_recreate_object` inlined in
the `MODULE`/`CLASS` case), with fuel.  The `match` cases are tried in source
order: primitives, lists, `TUPLE`, `SET`, `DICT`, then any mapping carrying
`MODULE` or `CLASS`, else `TypeError`.  Inside `_recreate_object`: both
`MODULE` and `CLASS` must be present (else `TypeError`), the class is
resolved by name (modelled as always succeeding for string names, per the
self-describing wire format), and the `PARAMS`/`ENUM`/`STATE` markers are
tried in that order.  `PARAMS` rebuilds via `cls(**params)` — keyword names
must be strings; `STATE` rebuilds via `__setstate__` for the state-capability
classes of this grammar; `ENUM` looks the member up on the enum class. -/
def fromSerializableDict : Nat → JTree → Except SerErr PValue
  | 0, _ => .error .fuelOut
  | f + 1, t =>
    match t with
    | .null => .ok .none
    | .bool b => .ok (.bool b)
    | .int n => .ok (.int n)
    | .str s => .ok (.str s)
    | .arr ts => do
      let vs ← mapExc (fromSerializableDict f) ts
      .ok (.list vs)
    | .obj kvs =>
    match getKey kvs Markers.TUPLE with
    | some val =>
      if kvs.length = 1 then
        match val with
        | .arr ts => do
          let vs ← mapExc (fromSerializableDict f) ts
          .ok (.tuple vs)
        | _ => .error (.typeError "TUPLE marker must map to a list")
      else .error (.typeError "TUPLE marker must be the only key")
    | Option.none =>
    match getKey kvs Markers.SET with
    | some val =>
      if kvs.length = 1 then
        match val with
        | .arr ts => do
          let vs ← mapExc (fromSerializableDict f) ts
          .ok (.set vs)
        | _ => .error (.typeError "SET marker must map to a list")
      else .error (.typeError "SET marker must be the only key")
    | Option.none =>
    match getKey kvs Markers.DICT with
    | some val =>
      if kvs.length = 1 then
        match val with
        | .obj inner => do
          let vs ← mapExc (fun kv : PKey × JTree => do
              let v ← fromSerializableDict f kv.2
              .ok (kv.1, v)) inner
          .ok (.dict vs)
        | _ => .error (.typeError "DICT marker must map to a dict")
      else .error (.typeError "DICT marker must be the only key")
    | Option.none =>
    if (getKey kvs Markers.MODULE).isSome || (getKey kvs Markers.CLASS).isSome then
      -- _recreate_object
      match getKey kvs Markers.MODULE, getKey kvs Markers.CLASS with
      | some (.str m), some (.str c) =>
        match getKey kvs Markers.PARAMS with
        | some pj => do
          let p ← fromSerializableDict f pj
          match p with
          | .dict ps =>
            if allStrKeys ps then .ok (.objP m c ps)
            else .error (.typeError "keywords must be strings")
          | _ => .error (.typeError "argument after double-star must be a mapping")
        | Option.none =>
        match getKey kvs Markers.ENUM with
        | some (.str member) => .ok (.enum m c member)
        | some _ => .error (.typeError "enum member name must be a string")
        | Option.none =>
        match getKey kvs Markers.STATE with
        | some st => do
          let state ← fromSerializableDict f st
          .ok (.objS m c state)
        | Option.none => .error (.typeError "Unable to recreate object from provided data")
      | _, _ => .error (.typeError "Object metadata missing required markers MODULE and CLASS")
    else .error (.typeError "Unsupported type")

/-- Model of `loadjs (dumpjs x)`: serialize, run the JSON text round trip
(key coercion), deserialize. -/
def loadjsDumpjs (f : Nat) (v : PValue) : Except SerErr PValue := do
  let t ← toSerializableDict f v
  match jsonKeyCoerce f t with
  | some t' => fromSerializableDict f t'
  | Option.none => .error .fuelOut


/-! ## Claim C1: serialization round trip -/

@[simp] theorem ok_bind (a : α) (g : α → Except SerErr β) :
    (Except.ok a : Except SerErr α) >>= g = g a := rfl

@[simp] theorem some_bind (a : α) (g : α → Option β) :
    ((some a : Option α) >>= g) = g a := rfl

@[simp] theorem error_bind (e : SerErr) (g : α → Except SerErr β) :
    (Except.error e : Except SerErr α) >>= g = Except.error e := rfl

@[simp] theorem none_bind (g : α → Option β) :
    ((Option.none : Option α) >>= g) = Option.none := rfl

/-- Values whose dictionary keys (including `get_params` keyword names) are
all strings.  This is the restriction forced by the JSON text stage: JSON
object keys are strings, so `json.dumps` silently coerces an integer key to
its decimal string and the round trip loses the original key. -/
inductive StrKeys : PValue → Prop
  | none : StrKeys .none
  | bool (b : Bool) : StrKeys (.bool b)
  | int (n : Int) : StrKeys (.int n)
  | str (s : String) : StrKeys (.str s)
  | list (xs : List PValue) (h : ∀ x ∈ xs, StrKeys x) : StrKeys (.list xs)
  | tuple (xs : List PValue) (h : ∀ x ∈ xs, StrKeys x) : StrKeys (.tuple xs)
  | set (xs : List PValue) (h : ∀ x ∈ xs, StrKeys x) : StrKeys (.set xs)
  | dict (kvs : List (PKey × PValue))
      (hk : ∀ kv ∈ kvs, ∃ s, Prod.fst kv = PKey.kstr s)
      (hv : ∀ kv ∈ kvs, StrKeys (Prod.snd kv)) : StrKeys (.dict kvs)
  | objP (m c : String) (ps : List (PKey × PValue))
      (hk : ∀ kv ∈ ps, ∃ s, Prod.fst kv = PKey.kstr s)
      (hv : ∀ kv ∈ ps, StrKeys (Prod.snd kv)) : StrKeys (.objP m c ps)
  | objS (m c : String) (st : PValue) (h : StrKeys st) : StrKeys (.objS m c st)
  | enum (m c member : String) : StrKeys (.enum m c member)

theorem sizeOf_string_pos (s : String) : 1 ≤ sizeOf s := by
  cases s with
  | mk data => simp [String.mk.sizeOf_spec]

/-- Pointwise success of a serialize / deserialize pair lifts to lists
processed by `mapExc`. -/
theorem mapExc_pair (g1 : α → Except SerErr β) (g3 : β → Except SerErr α)
    (xs : List α)
    (ih : ∀ x ∈ xs, ∃ t, g1 x = .ok t ∧ g3 t = .ok x) :
    ∃ ts, mapExc g1 xs = .ok ts ∧ mapExc g3 ts = .ok xs := by
  induction xs with
  | nil => exact ⟨[], rfl, rfl⟩
  | cons x xs ihl =>
    obtain ⟨t, ht, hf⟩ := ih x (by simp)
    obtain ⟨ts, hts, hfs⟩ := ihl (fun y hy => ih y (by simp [hy]))
    exact ⟨t :: ts, by simp [mapExc, ht, hts], by simp [mapExc, hf, hfs]⟩

/-- Success of `mapExc` pairs inputs with outputs elementwise. -/
theorem mapExc_ok_forall2 (g : α → Except SerErr β) :
    ∀ xs ys, mapExc g xs = .ok ys →
      List.Forall₂ (fun x y => g x = .ok y) xs ys := by
  intro xs
  induction xs with
  | nil =>
    intro ys h
    simp [mapExc] at h
    simp [← h]
  | cons x xs ihl =>
    intro ys h
    cases hx : g x with
    | error e => simp [mapExc, hx] at h
    | ok t =>
      cases hxs : mapExc g xs with
      | error e => simp [mapExc, hx, hxs] at h
      | ok ts =>
        simp [mapExc, hx, hxs] at h
        subst h
        exact List.Forall₂.cons hx (ihl ts hxs)

/-- A list whose elements are fixed by an `Option` function is fixed by
`mapOpt`. -/
theorem mapOpt_id_of (g : β → Option β) (ys : List β)
    (h : ∀ y ∈ ys, g y = some y) : mapOpt g ys = some ys := by
  induction ys with
  | nil => rfl
  | cons y ys ihl =>
    simp [mapOpt, h y (by simp), ihl (fun z hz => h z (by simp [hz]))]

theorem jsonKeyCoerce_str (g : Nat) (s : String) :
    jsonKeyCoerce (g + 1) (.str s) = some (.str s) := rfl

theorem jsonKeyCoerce_arr_of (g : Nat) (ts ts' : List JTree)
    (h : mapOpt (jsonKeyCoerce g) ts = some ts') :
    jsonKeyCoerce (g + 1) (.arr ts) = some (.arr ts') := by
  simp [jsonKeyCoerce, h]

theorem jsonKeyCoerce_obj_of (g : Nat) (kvs kvs' : List (PKey × JTree))
    (h : mapOpt (fun kv : PKey × JTree => do
        let v' ← jsonKeyCoerce g kv.2
        some (match kv.1 with
              | PKey.kstr s => (PKey.kstr s, v')
              | PKey.kint n => (PKey.kstr (toString n), v'))) kvs = some kvs') :
    jsonKeyCoerce (g + 1) (.obj kvs) = some (.obj kvs') := by
  simp only [jsonKeyCoerce]
  rw [h]
  rfl

theorem jsonKeyCoerce_obj1 (g : Nat) (k : String) (tv tv' : JTree)
    (h : jsonKeyCoerce g tv = some tv') :
    jsonKeyCoerce (g + 1) (.obj [(.kstr k, tv)]) = some (.obj [(.kstr k, tv')]) := by
  simp [jsonKeyCoerce, mapOpt, h]

theorem jsonKeyCoerce_obj3 (g : Nat) (k1 k2 k3 : String) (v1 v2 v3 w1 w2 w3 : JTree)
    (h1 : jsonKeyCoerce g v1 = some w1) (h2 : jsonKeyCoerce g v2 = some w2)
    (h3 : jsonKeyCoerce g v3 = some w3) :
    jsonKeyCoerce (g + 1) (.obj [(.kstr k1, v1), (.kstr k2, v2), (.kstr k3, v3)]) =
      some (.obj [(.kstr k1, w1), (.kstr k2, w2), (.kstr k3, w3)]) := by
  simp [jsonKeyCoerce, mapOpt, h1, h2, h3]

theorem allStrKeys_of (ps : List (PKey × PValue))
    (h : ∀ kv ∈ ps, ∃ s, Prod.fst kv = PKey.kstr s) : allStrKeys ps = true := by
  induction ps with
  | nil => rfl
  | cons kv rest ihl =>
    obtain ⟨s, hs⟩ := h kv (by simp)
    have hrest := ihl (fun kv hkv => h kv (by simp [hkv]))
    simp [allStrKeys] at hrest ⊢
    exact ⟨by simp [hs], hrest⟩

/-- Elementwise coercion stability for serialized list elements, assuming the
statement of `jsonKeyCoerce_fix` at coercion fuel `g` (passed as `IH`). -/
theorem coerce_fix_list (g : Nat)
    (IH : ∀ v f t, toSerializableDict f v = .ok t → StrKeys v → sizeOf v < g →
      jsonKeyCoerce g t = some t)
    (f0 : Nat) (xs : List PValue) (ts : List JTree)
    (hall : List.Forall₂ (fun x y => toSerializableDict f0 x = .ok y) xs ts)
    (hsk : ∀ x ∈ xs, StrKeys x) (hsz : ∀ x ∈ xs, sizeOf x < g) :
    ∀ t2 ∈ ts, jsonKeyCoerce g t2 = some t2 := by
  induction hall with
  | nil => simp
  | cons hxy htail ihl =>
    intro t2 ht2
    rcases List.mem_cons.mp ht2 with rfl | hmem
    · exact IH _ _ _ hxy (hsk _ (by simp)) (hsz _ (by simp))
    · exact ihl (fun x hx => hsk x (by simp [hx])) (fun x hx => hsz x (by simp [hx]))
        t2 hmem

/-- Elementwise coercion stability for serialized key-value pairs. -/
theorem coerce_fix_kvs (g : Nat)
    (IH : ∀ v f t, toSerializableDict f v = .ok t → StrKeys v → sizeOf v < g →
      jsonKeyCoerce g t = some t)
    (f0 : Nat) (kvs : List (PKey × PValue)) (ts : List (PKey × JTree))
    (hall : List.Forall₂ (fun kv kvt =>
      (do let t ← toSerializableDict f0 (Prod.snd kv)
          Except.ok (Prod.fst kv, t)) = Except.ok kvt) kvs ts)
    (hk : ∀ kv ∈ kvs, ∃ s, Prod.fst kv = PKey.kstr s)
    (hsk : ∀ kv ∈ kvs, StrKeys (Prod.snd kv))
    (hsz : ∀ kv ∈ kvs, sizeOf (Prod.snd kv) < g) :
    ∀ kvt ∈ ts, (fun kv : PKey × JTree => do
        let v2 ← jsonKeyCoerce g kv.2
        some (match kv.1 with
              | PKey.kstr s => (PKey.kstr s, v2)
              | PKey.kint n => (PKey.kstr (toString n), v2))) kvt = some kvt := by
  induction hall with
  | nil => simp
  | @cons kv kvt kvtail ttail hxy htail ihl =>
    intro t2 ht2
    rcases List.mem_cons.mp ht2 with rfl | hmem
    · cases hx : toSerializableDict f0 (Prod.snd kv) with
      | error e => simp [hx] at hxy
      | ok tv =>
        simp [hx] at hxy
        obtain ⟨s, hs⟩ := hk kv (by simp)
        have hcv := IH _ _ _ hx (hsk _ (by simp)) (hsz _ (by simp))
        simp [← hxy, hcv, hs]
    · exact ihl (fun x hx => hk x (by simp [hx])) (fun x hx => hsk x (by simp [hx]))
        (fun x hx => hsz x (by simp [hx])) t2 hmem

/-- Trees produced by serializing a string-keyed value are fixed points of
the JSON key coercion: the `json.dumps`/`json.loads` text stage does not
change them. -/
theorem jsonKeyCoerce_fix :
    ∀ g : Nat, ∀ v : PValue, ∀ f t, toSerializableDict f v = .ok t →
      StrKeys v → sizeOf v < g → jsonKeyCoerce g t = some t := by
  intro g
  induction g using Nat.strong_induction_on with
  | _ g ih =>
    intro v f t hser hsk hsz
    obtain ⟨f0, rfl⟩ : ∃ f0, f = f0 + 1 := by
      cases f with
      | zero => simp [toSerializableDict] at hser
      | succ f0 => exact ⟨f0, rfl⟩
    cases hsk with
    | none =>
      obtain ⟨g1, rfl⟩ : ∃ g1, g = g1 + 1 := ⟨g - 1, by simp at hsz; omega⟩
      simp [toSerializableDict] at hser
      simp [← hser, jsonKeyCoerce]
    | bool b =>
      obtain ⟨g1, rfl⟩ : ∃ g1, g = g1 + 1 := ⟨g - 1, by simp at hsz; omega⟩
      simp [toSerializableDict] at hser
      simp [← hser, jsonKeyCoerce]
    | int n =>
      obtain ⟨g1, rfl⟩ : ∃ g1, g = g1 + 1 := ⟨g - 1, by simp at hsz; omega⟩
      simp [toSerializableDict] at hser
      simp [← hser, jsonKeyCoerce]
    | str s =>
      obtain ⟨g1, rfl⟩ : ∃ g1, g = g1 + 1 := ⟨g - 1, by simp at hsz; omega⟩
      simp [toSerializableDict] at hser
      simp [← hser, jsonKeyCoerce]
    | list xs h =>
      cases hmx : mapExc (toSerializableDict f0) xs with
      | error e => simp [toSerializableDict, hmx] at hser
      | ok ts =>
        simp [toSerializableDict, hmx] at hser
        obtain ⟨g1, rfl⟩ : ∃ g1, g = g1 + 1 := ⟨g - 1, by simp at hsz; omega⟩
        have hfix := coerce_fix_list g1 (ih g1 (by omega)) f0 xs ts
          (mapExc_ok_forall2 _ _ _ hmx) h
          (fun x hx => by
            have := List.sizeOf_lt_of_mem hx
            simp at hsz; omega)
        subst hser
        exact jsonKeyCoerce_arr_of g1 ts ts (mapOpt_id_of _ ts hfix)
    | tuple xs h =>
      cases hmx : mapExc (toSerializableDict f0) xs with
      | error e => simp [toSerializableDict, hmx] at hser
      | ok ts =>
        simp [toSerializableDict, hmx] at hser
        obtain ⟨g2, rfl⟩ : ∃ g2, g = g2 + 2 := ⟨g - 2, by simp at hsz; omega⟩
        have hfix := coerce_fix_list g2 (ih g2 (by omega)) f0 xs ts
          (mapExc_ok_forall2 _ _ _ hmx) h
          (fun x hx => by
            have := List.sizeOf_lt_of_mem hx
            simp at hsz; omega)
        subst hser
        exact jsonKeyCoerce_obj1 (g2 + 1) Markers.TUPLE _ _
          (jsonKeyCoerce_arr_of g2 ts ts (mapOpt_id_of _ ts hfix))
    | set xs h =>
      cases hmx : mapExc (toSerializableDict f0) xs with
      | error e => simp [toSerializableDict, hmx] at hser
      | ok ts =>
        simp [toSerializableDict, hmx] at hser
        obtain ⟨g2, rfl⟩ : ∃ g2, g = g2 + 2 := ⟨g - 2, by simp at hsz; omega⟩
        have hfix := coerce_fix_list g2 (ih g2 (by omega)) f0 xs ts
          (mapExc_ok_forall2 _ _ _ hmx) h
          (fun x hx => by
            have := List.sizeOf_lt_of_mem hx
            simp at hsz; omega)
        subst hser
        exact jsonKeyCoerce_obj1 (g2 + 1) Markers.SET _ _
          (jsonKeyCoerce_arr_of g2 ts ts (mapOpt_id_of _ ts hfix))
    | dict kvs hk hv =>
      cases hmx : mapExc (fun kv : PKey × PValue => do
          let t ← toSerializableDict f0 kv.2
          Except.ok (kv.1, t)) kvs with
      | error e => simp [toSerializableDict, hmx] at hser
      | ok ts =>
        simp [toSerializableDict, hmx] at hser
        obtain ⟨g2, rfl⟩ : ∃ g2, g = g2 + 2 := ⟨g - 2, by simp at hsz; omega⟩
        have hfix := coerce_fix_kvs g2 (ih g2 (by omega)) f0 kvs ts
          (mapExc_ok_forall2 _ _ _ hmx) hk hv
          (fun kv hkv => by
            have := List.sizeOf_lt_of_mem hkv
            rcases kv with ⟨k, v2⟩
            simp at hsz this ⊢
            omega)
        subst hser
        exact jsonKeyCoerce_obj1 (g2 + 1) Markers.DICT _ _
          (jsonKeyCoerce_obj_of g2 ts ts (mapOpt_id_of _ ts hfix))
    | objP m c ps hk hv =>
      cases hip : toSerializableDict f0 (.dict ps) with
      | error e => simp [toSerializableDict, hip] at hser
      | ok td =>
        simp [toSerializableDict, hip] at hser
        have hm := sizeOf_string_pos m
        have hc := sizeOf_string_pos c
        obtain ⟨g2, rfl⟩ : ∃ g2, g = g2 + 2 := ⟨g - 2, by simp at hsz; omega⟩
        have hpd : jsonKeyCoerce (g2 + 1) td = some td := by
          refine ih (g2 + 1) (by omega) (.dict ps) f0 td hip (.dict ps hk hv) ?_
          simp at hsz ⊢; omega
        subst hser
        exact jsonKeyCoerce_obj3 (g2 + 1) Markers.CLASS Markers.MODULE Markers.PARAMS
          _ _ _ _ _ _ (jsonKeyCoerce_str g2 c) (jsonKeyCoerce_str g2 m) hpd
    | objS m c st h =>
      cases hip : toSerializableDict f0 st with
      | error e => simp [toSerializableDict, hip] at hser
      | ok td =>
        simp [toSerializableDict, hip] at hser
        have hm := sizeOf_string_pos m
        have hc := sizeOf_string_pos c
        obtain ⟨g2, rfl⟩ : ∃ g2, g = g2 + 2 := ⟨g - 2, by simp at hsz; omega⟩
        have hpd : jsonKeyCoerce (g2 + 1) td = some td := by
          refine ih (g2 + 1) (by omega) st f0 td hip h ?_
          simp at hsz ⊢; omega
        subst hser
        exact jsonKeyCoerce_obj3 (g2 + 1) Markers.CLASS Markers.MODULE Markers.STATE
          _ _ _ _ _ _ (jsonKeyCoerce_str g2 c) (jsonKeyCoerce_str g2 m) hpd
    | enum m c member =>
      simp [toSerializableDict] at hser
      have hm := sizeOf_string_pos m
      obtain ⟨g2, rfl⟩ : ∃ g2, g = g2 + 2 := ⟨g - 2, by simp at hsz; omega⟩
      subst hser
      exact jsonKeyCoerce_obj3 (g2 + 1) Markers.ENUM Markers.CLASS Markers.MODULE
        _ _ _ _ _ _ (jsonKeyCoerce_str g2 member) (jsonKeyCoerce_str g2 c)
        (jsonKeyCoerce_str g2 m)

/-- Main round-trip induction: a value in the claim-C1 grammar with string
dictionary keys serializes successfully and deserializing the serialized
tree recovers the value exactly (fuel `f` beyond the value's size). -/
theorem serializer_roundtrip_aux :
    ∀ f : Nat, ∀ v : PValue, StrKeys v → sizeOf v < f →
      ∃ t, toSerializableDict f v = .ok t ∧ fromSerializableDict f t = .ok v := by
  intro f
  induction f with
  | zero => intro v _ h; omega
  | succ f ih =>
    intro v hsk hsz
    cases hsk with
    | none => exact ⟨.null, rfl, rfl⟩
    | bool b => exact ⟨.bool b, rfl, rfl⟩
    | int n => exact ⟨.int n, rfl, rfl⟩
    | str s => exact ⟨.str s, rfl, rfl⟩
    | list xs h =>
      have hch : ∀ x ∈ xs, ∃ t, toSerializableDict f x = .ok t ∧
          fromSerializableDict f t = .ok x := by
        intro x hx
        have hlt : sizeOf x < sizeOf xs := List.sizeOf_lt_of_mem hx
        refine ih x (h x hx) ?_
        simp at hsz; omega
      obtain ⟨ts, h1, h3⟩ := mapExc_pair _ _ xs hch
      exact ⟨.arr ts, by simp [toSerializableDict, h1],
        by simp [fromSerializableDict, h3]⟩
    | tuple xs h =>
      have hch : ∀ x ∈ xs, ∃ t, toSerializableDict f x = .ok t ∧
          fromSerializableDict f t = .ok x := by
        intro x hx
        have hlt : sizeOf x < sizeOf xs := List.sizeOf_lt_of_mem hx
        refine ih x (h x hx) ?_
        simp at hsz; omega
      obtain ⟨ts, h1, h3⟩ := mapExc_pair _ _ xs hch
      refine ⟨.obj [(.kstr Markers.TUPLE, .arr ts)],
        by simp [toSerializableDict, h1], ?_⟩
      simp [fromSerializableDict, getKey, Markers.TUPLE, h3]
    | set xs h =>
      have hch : ∀ x ∈ xs, ∃ t, toSerializableDict f x = .ok t ∧
          fromSerializableDict f t = .ok x := by
        intro x hx
        have hlt : sizeOf x < sizeOf xs := List.sizeOf_lt_of_mem hx
        refine ih x (h x hx) ?_
        simp at hsz; omega
      obtain ⟨ts, h1, h3⟩ := mapExc_pair _ _ xs hch
      refine ⟨.obj [(.kstr Markers.SET, .arr ts)],
        by simp [toSerializableDict, h1], ?_⟩
      simp [fromSerializableDict, getKey, Markers.SET, Markers.TUPLE, h3]
    | dict kvs hk hv =>
      have hch : ∀ kv ∈ kvs, ∃ t,
          (fun kv : PKey × PValue => do
            let t ← toSerializableDict f kv.2
            Except.ok (kv.1, t)) kv = .ok t ∧
          (fun kv : PKey × JTree => do
            let v2 ← fromSerializableDict f kv.2
            Except.ok (kv.1, v2)) t = .ok kv := by
        intro kv hkv
        have hlt : sizeOf kv < sizeOf kvs := List.sizeOf_lt_of_mem hkv
        have hvlt : sizeOf (Prod.snd kv) < f := by
          rcases kv with ⟨k, v2⟩
          simp at hsz hlt ⊢; omega
        obtain ⟨t, h1, h3⟩ := ih (Prod.snd kv) (hv kv hkv) hvlt
        exact ⟨(kv.1, t), by simp [h1], by simp [h3]⟩
      obtain ⟨ts, h1, h3⟩ := mapExc_pair _ _ kvs hch
      refine ⟨.obj [(.kstr Markers.DICT, .obj ts)],
        by simp [toSerializableDict, h1], ?_⟩
      simp [fromSerializableDict, getKey, Markers.DICT, Markers.SET,
        Markers.TUPLE, h3]
    | objP m c ps hk hv =>
      have hm := sizeOf_string_pos m
      have hc := sizeOf_string_pos c
      have hd : sizeOf (PValue.dict ps) < f := by
        simp at hsz ⊢; omega
      obtain ⟨td, h1, h3⟩ := ih (.dict ps) (.dict ps hk hv) hd
      have hastr : allStrKeys ps = true := allStrKeys_of ps hk
      refine ⟨.obj [(.kstr Markers.CLASS, .str c), (.kstr Markers.MODULE, .str m),
                    (.kstr Markers.PARAMS, td)], by simp [toSerializableDict, h1], ?_⟩
      simp [fromSerializableDict, getKey, Markers.CLASS, Markers.MODULE,
        Markers.PARAMS, Markers.DICT, Markers.SET, Markers.TUPLE, h3, hastr]
    | objS m c st h =>
      have hm := sizeOf_string_pos m
      have hc := sizeOf_string_pos c
      have hd : sizeOf st < f := by
        simp at hsz ⊢; omega
      obtain ⟨td, h1, h3⟩ := ih st h hd
      refine ⟨.obj [(.kstr Markers.CLASS, .str c), (.kstr Markers.MODULE, .str m),
                    (.kstr Markers.STATE, td)], by simp [toSerializableDict, h1], ?_⟩
      simp [fromSerializableDict, getKey, Markers.CLASS, Markers.MODULE,
        Markers.PARAMS, Markers.STATE, Markers.ENUM, Markers.DICT, Markers.SET,
        Markers.TUPLE, h3]
    | enum m c member =>
      refine ⟨.obj [(.kstr Markers.ENUM, .str member), (.kstr Markers.CLASS, .str c),
                    (.kstr Markers.MODULE, .str m)], rfl, ?_⟩
      simp [fromSerializableDict, getKey, Markers.CLASS, Markers.MODULE,
        Markers.PARAMS, Markers.STATE, Markers.ENUM, Markers.DICT, Markers.SET,
        Markers.TUPLE]

/-- Claim C1 (counterexample).  The claim states that for *every* object
graph built from JSON-representable primitives and the built-in containers,
`loadjs(dumpjs(x))` returns a value equal to `x` in type and content.  The
dictionary `x = {1: "a"}` is such a graph, but the serializer places the
integer key directly into the JSON object and `json.dumps` coerces it to the
string `"1"`, so the round trip returns `{"1": "a"} ≠ {1: "a"}`. -/
theorem c1_roundtrip_counterexample :
    loadjsDumpjs 9 (.dict [(.kint 1, .str "a")]) =
      .ok (.dict [(.kstr "1", .str "a")]) ∧
    PValue.dict [(PKey.kstr "1", PValue.str "a")] ≠
      PValue.dict [(PKey.kint 1, PValue.str "a")] :=
  ⟨rfl, by simp⟩

/-- Claim C1 (amended).  For every object graph built from the
JSON-representable primitives, the built-in containers list/tuple/set/dict
*with string dictionary keys*, and custom objects serialized via their
parameter capability (`get_params`), state capability, or enum membership,
without cycles, `loadjs(dumpjs(x))` — that is,
`_from_serializable_dict(_to_serializable_dict(x))` after a JSON text round
trip — returns a value equal to `x` in both type and content.  The fuel
hypothesis `sizeOf v < f` only rules out the model's artificial fuel
exhaustion. -/
theorem c1_roundtrip (v : PValue) (f : Nat) (hsk : StrKeys v)
    (hsz : sizeOf v < f) : loadjsDumpjs f v = .ok v := by
  obtain ⟨t, h1, h3⟩ := serializer_roundtrip_aux f v hsk hsz
  have h2 := jsonKeyCoerce_fix f v f t h1 hsk hsz
  simp [loadjsDumpjs, h1, h2, h3]

/-- Witness for `c1_roundtrip` at a concrete graph exercising primitives, a
parameter-capability object, a tuple and a dict with string keys. -/
theorem c1_roundtrip_witness :
    loadjsDumpjs 100000
      (.dict [(.kstr "k", .objP "m" "C" [(.kstr "x", .tuple [.int 3, .none])])]) =
    .ok (.dict [(.kstr "k", .objP "m" "C" [(.kstr "x", .tuple [.int 3, .none])])]) := by
  refine c1_roundtrip _ _ ?_ (by decide)
  refine StrKeys.dict _ ?_ ?_
  · intro kv hkv
    simp at hkv
    exact ⟨"k", by simp [hkv]⟩
  · intro kv hkv
    simp at hkv
    rw [hkv]
    refine StrKeys.objP _ _ _ ?_ ?_
    · intro kv2 hkv2
      simp at hkv2
      exact ⟨"x", by simp [hkv2]⟩
    · intro kv2 hkv2
      simp at hkv2
      rw [hkv2]
      exact StrKeys.tuple _ (by
        intro x hx
        simp at hx
        rcases hx with rfl | rfl
        · exact StrKeys.int 3
        · exact StrKeys.none)

/-! ## Claim C8: marker-record shape invariant -/

/-- Well-formed serializer output: every JSON object in a tree produced by
`_to_serializable_dict` is either one of the container marker records
(`TUPLE`/`SET`/`DICT`, the marker being the only key) or a custom-instance
record that contains the class-name entry, the module-name entry and exactly
one of `PARAMS`, `STATE` or `ENUM` — and no other keys.   The payload of a
`DICT` marker carries user-controlled keys, but it is a payload of the dict
marker, not a custom-instance record. -/
inductive GoodTree : JTree → Prop
  | null : GoodTree .null
  | bool (b : Bool) : GoodTree (.bool b)
  | int (n : Int) : GoodTree (.int n)
  | str (s : String) : GoodTree (.str s)
  | arr (ts : List JTree) (h : ∀ t ∈ ts, GoodTree t) : GoodTree (.arr ts)
  | tupleRec (ts : List JTree) (h : ∀ t ∈ ts, GoodTree t) :
      GoodTree (.obj [(.kstr Markers.TUPLE, .arr ts)])
  | setRec (ts : List JTree) (h : ∀ t ∈ ts, GoodTree t) :
      GoodTree (.obj [(.kstr Markers.SET, .arr ts)])
  | dictRec (kvs : List (PKey × JTree)) (h : ∀ kv ∈ kvs, GoodTree (Prod.snd kv)) :
      GoodTree (.obj [(.kstr Markers.DICT, .obj kvs)])
  | paramsRec (m c : String) (p : JTree) (h : GoodTree p) :
      GoodTree (.obj [(.kstr Markers.CLASS, .str c), (.kstr Markers.MODULE, .str m),
        (.kstr Markers.PARAMS, p)])
  | stateRec (m c : String) (st : JTree) (h : GoodTree st) :
      GoodTree (.obj [(.kstr Markers.CLASS, .str c), (.kstr Markers.MODULE, .str m),
        (.kstr Markers.STATE, st)])
  | enumRec (m c member : String) :
      GoodTree (.obj [(.kstr Markers.ENUM, .str member), (.kstr Markers.CLASS, .str c),
        (.kstr Markers.MODULE, .str m)])

/-- Successful `mapExc` output elements each come from some input. -/
theorem mapExc_ok_mem (g : α → Except SerErr β) :
    ∀ xs ys, mapExc g xs = .ok ys → ∀ y ∈ ys, ∃ x, g x = .ok y := by
  intro xs
  induction xs with
  | nil =>
    intro ys h
    simp [mapExc] at h
    subst h
    simp
  | cons x xs ihl =>
    intro ys h
    cases hx : g x with
    | error e => simp [mapExc, hx] at h
    | ok t =>
      cases hxs : mapExc g xs with
      | error e => simp [mapExc, hx, hxs] at h
      | ok ts =>
        simp [mapExc, hx, hxs] at h
        subst h
        intro y hy
        rcases List.mem_cons.mp hy with rfl | hmem
        · exact ⟨x, hx⟩
        · exact ihl ts hxs y hmem

/-- Claim C8.  Every record the serializer emits for a custom-class instance
carries the module-name and class-name entries plus exactly one of the
`PARAMS`/`STATE`/`ENUM` markers and no other keys: every tree
`_to_serializable_dict` returns satisfies `GoodTree`, whose only
custom-instance record shapes are `(CLASS, MODULE, PARAMS)`,
`(CLASS, MODULE, STATE)` and `(ENUM, CLASS, MODULE)`. -/
theorem c8_marker_record_shape :
    ∀ f : Nat, ∀ v : PValue, ∀ t, toSerializableDict f v = .ok t → GoodTree t := by
  intro f
  induction f with
  | zero => intro v t h; simp [toSerializableDict] at h
  | succ f ih =>
    intro v t h
    cases v with
    | none => simp [toSerializableDict] at h; exact h ▸ GoodTree.null
    | bool b => simp [toSerializableDict] at h; exact h ▸ GoodTree.bool b
    | int n => simp [toSerializableDict] at h; exact h ▸ GoodTree.int n
    | str s => simp [toSerializableDict] at h; exact h ▸ GoodTree.str s
    | list xs =>
      cases hmx : mapExc (toSerializableDict f) xs with
      | error e => simp [toSerializableDict, hmx] at h
      | ok ts =>
        simp [toSerializableDict, hmx] at h
        refine h ▸ GoodTree.arr ts ?_
        intro t2 ht2
        obtain ⟨x, hx⟩ := mapExc_ok_mem _ xs ts hmx t2 ht2
        exact ih x t2 hx
    | tuple xs =>
      cases hmx : mapExc (toSerializableDict f) xs with
      | error e => simp [toSerializableDict, hmx] at h
      | ok ts =>
        simp [toSerializableDict, hmx] at h
        refine h ▸ GoodTree.tupleRec ts ?_
        intro t2 ht2
        obtain ⟨x, hx⟩ := mapExc_ok_mem _ xs ts hmx t2 ht2
        exact ih x t2 hx
    | set xs =>
      cases hmx : mapExc (toSerializableDict f) xs with
      | error e => simp [toSerializableDict, hmx] at h
      | ok ts =>
        simp [toSerializableDict, hmx] at h
        refine h ▸ GoodTree.setRec ts ?_
        intro t2 ht2
        obtain ⟨x, hx⟩ := mapExc_ok_mem _ xs ts hmx t2 ht2
        exact ih x t2 hx
    | dict kvs =>
      cases hmx : mapExc (fun kv : PKey × PValue => do
          let t ← toSerializableDict f kv.2
          Except.ok (kv.1, t)) kvs with
      | error e => simp [toSerializableDict, hmx] at h
      | ok ts =>
        simp [toSerializableDict, hmx] at h
        refine h ▸ GoodTree.dictRec ts ?_
        intro kv2 hkv2
        obtain ⟨kv, hkv⟩ := mapExc_ok_mem _ kvs ts hmx kv2 hkv2
        cases hx : toSerializableDict f kv.2 with
        | error e => simp [hx] at hkv
        | ok tv =>
          simp [hx] at hkv
          have := ih kv.2 tv hx
          rw [← hkv]
          exact this
    | objP m c ps =>
      cases hip : toSerializableDict f (.dict ps) with
      | error e => simp [toSerializableDict, hip] at h
      | ok td =>
        simp [toSerializableDict, hip] at h
        exact h ▸ GoodTree.paramsRec m c td (ih _ _ hip)
    | objS m c st =>
      cases hip : toSerializableDict f st with
      | error e => simp [toSerializableDict, hip] at h
      | ok td =>
        simp [toSerializableDict, hip] at h
        exact h ▸ GoodTree.stateRec m c td (ih _ _ hip)
    | enum m c member =>
      simp [toSerializableDict] at h
      exact h ▸ GoodTree.enumRec m c member

/-- Witness for `c8_marker_record_shape`: the record serialized for a
parameter-capability object with one parameter. -/
theorem c8_marker_record_shape_witness :
    GoodTree (.obj [(.kstr Markers.CLASS, .str "C"), (.kstr Markers.MODULE, .str "m"),
      (.kstr Markers.PARAMS, .obj [(.kstr Markers.DICT,
        .obj [(.kstr "x", .int 3)])])]) :=
  c8_marker_record_shape 5 (.objP "m" "C" [(.kstr "x", .int 3)]) _ rfl

/-! ## Claim C9: slot-count checking during STATE deserialization

Model of the `STATE` branch of `_recreate_object` (json_processor.py lines
218-279) for a slotted class *without* `__setstate__`: given the already
deserialized state value and the slot names collected by `_get_all_slots`
over the class hierarchy, compute the ordered `setattr` assignments the code
performs, or the error it raises. -/

/-- Convert deserialized mapping items to attribute assignments;
`setattr` requires string attribute names. -/
def keysToNames : List (PKey × PValue) → Except SerErr (List (String × PValue))
  | [] => .ok []
  | (PKey.kstr s, v) :: rest => do
    let r ← keysToNames rest
    .ok ((s, v) :: r)
  | (PKey.kint _, _) :: _rest => .error (.typeError "attribute name must be a string")

/-- The tuple-state format detection cascade of `_recreate_object`: from the
deserialized tuple's parts, determine `(slot_mapping, slot_values_seq,
dict_values)` following the source's ordered `isinstance` tests:
`(dict, dict)` is CPython's default format, `(seq, None | dict)` is this
encoder's format, `(dict, seq)` tolerates swapped components,
`(None, dict)` is dict-only, anything else treats the whole tuple as the
slot-value sequence; a tuple not of length 2 is also the slot-value
sequence. -/
def stateTriple (parts : List PValue) :
    Option (List (PKey × PValue)) × Option (List PValue) ×
      Option (List (PKey × PValue)) :=
  match parts with
  | [a, b] =>
    match a, b with
    | .dict da, .dict db => (some db, Option.none, some da)
    | .list xs, .none => (Option.none, some xs, Option.none)
    | .list xs, .dict db => (Option.none, some xs, some db)
    | .tuple xs, .none => (Option.none, some xs, Option.none)
    | .tuple xs, .dict db => (Option.none, some xs, some db)
    | .dict da, .list xs => (Option.none, some xs, some da)
    | .dict da, .tuple xs => (Option.none, some xs, some da)
    | .none, .dict db => (Option.none, Option.none, some db)
    | a, b => (Option.none, some [a, b], Option.none)
  | _ => (Option.none, some parts, Option.none)

/-- Assignments performed by the `STATE` branch of `_recreate_object` for a
slotted class without `__setstate__`.  A tuple state goes through
`stateTriple`; then a slot mapping is applied without any count check, a
*non-empty* slot-value sequence is length-checked against the declared slots
(raising `TypeError` on mismatch), an empty sequence is skipped, and a
non-empty `dict_values` mapping is applied afterwards (`if dict_values:` is
Python truthiness, so an empty dict is skipped).  A non-tuple state is
treated as a plain attribute mapping. -/
def recreateSlottedFromState (slots : List String) (state : PValue) :
    Except SerErr (List (String × PValue)) :=
  match state with
  | .tuple parts => do
    let (slotMapping, slotValuesSeq, dictValues) := stateTriple parts
    let slotAssigns ←
      match slotMapping with
      | some db => keysToNames db
      | Option.none =>
        match slotValuesSeq with
        | some seq =>
          if seq.length > 0 then
            if seq.length ≠ slots.length then
              .error (.typeError "Tuple state length does not match slots length")
            else .ok (slots.zip seq)
          else .ok []
        | Option.none => .ok []
    let dictAssigns ←
      match dictValues with
      | some kvs => if kvs.isEmpty then .ok [] else keysToNames kvs
      | Option.none => .ok []
    .ok (slotAssigns ++ dictAssigns)
  | .dict kvs => keysToNames kvs
  | _ => .error (.typeError "state must be a mapping or a tuple")

/-- Claim C9 (counterexample).  The claim says a stored slot-value sequence
whose length differs from the declared slot count is *always* rejected with a
type error.  But the guard `len(slot_values_seq) > 0` skips the check for an
empty stored sequence: deserializing state `((), None)` for a class that now
declares one slot succeeds with no assignments, although `0 ≠ 1`. -/
theorem c9_slot_mismatch_counterexample :
    recreateSlottedFromState ["a"] (.tuple [.tuple [], .none]) = .ok [] ∧
    List.length ([] : List PValue) ≠ List.length ["a"] :=
  ⟨rfl, by decide⟩

/-- Claim C9 (amended).  During deserialization of a STATE marker record for
a slotted class without `__setstate__`, if the stored sequence of slot
values is non-empty and its length differs from the number of slots
declared across the class hierarchy, a type error is raised; an empty
stored sequence is accepted regardless of the slot count, leaving the slots
unassigned. -/
theorem c9_slot_mismatch (slots : List String) (parts : List PValue)
    (seq : List PValue) (dv : Option (List (PKey × PValue)))
    (h : stateTriple parts = (Option.none, some seq, dv))
    (hne : seq ≠ []) (hlen : seq.length ≠ slots.length) :
    recreateSlottedFromState slots (.tuple parts) =
      .error (.typeError "Tuple state length does not match slots length") := by
  cases seq with
  | nil => exact absurd rfl hne
  | cons x _rest =>
    simp [recreateSlottedFromState, h]
    simp at hlen
    simp [hlen]

/-- Witness for `c9_slot_mismatch`: one stored slot value against two
declared slots. -/
theorem c9_slot_mismatch_witness :
    recreateSlottedFromState ["a", "b"] (.tuple [.list [.int 1], .none]) =
      .error (.typeError "Tuple state length does not match slots length") :=
  c9_slot_mismatch ["a", "b"] [.list [.int 1], .none] [.int 1] Option.none rfl
    (by simp) (by decide)

/-! ## Heap model of the serializer: cycle detection (claim C6)

Claims about object identity need identities.  A heap maps addresses to
cells; compound values are references into the heap, and `id(x)` is the
address.  `serHeap` is `_to_serializable_dict` again, now with the `seen`
set of addresses on the active recursion path: the address is added before
descending into a compound value's children and the extended path is passed
only to the recursive calls, which renders exactly the
`seen.add(obj_id) ... finally: seen.remove(obj_id)` bracketing of the
source. -/

/-- Primitive (immediate) values: never enter the `seen` set, as the source
returns them before the cycle guard. -/
inductive HPrim where
  | pnone
  | pbool (b : Bool)
  | pint (n : Int)
  | pstr (s : String)
deriving DecidableEq, Repr

/-- A value is a primitive or a reference to a heap cell. -/
inductive HVal where
  | prim (p : HPrim)
  | ref (a : Nat)
deriving DecidableEq, Repr

/-- Compound heap cells: the supported container kinds plus a custom object
serialized through its `__dict__` (the `hasattr(x, "__dict__")` branch). -/
inductive SCell where
  | list (xs : List HVal)
  | tuple (xs : List HVal)
  | set (xs : List HVal)
  | dict (kvs : List (String × HVal))
  | objd (m c : String) (attrs : List (String × HVal))
deriving DecidableEq, Repr

/-- A heap: an association of addresses to cells. -/
abbrev SHeap := List (Nat × SCell)

/-- Address lookup (first match). -/
def hlookup : SHeap → Nat → Option SCell
  | [], _ => Option.none
  | (b, c) :: rest, a => if b = a then some c else hlookup rest a

/-- JSON encoding of a primitive. -/
def primTree : HPrim → JTree
  | .pnone => .null
  | .pbool b => .bool b
  | .pint n => .int n
  | .pstr s => .str s

/-- The error raised on a cyclic reference. -/
def cycleErr : SerErr :=
  .recursionError "Cyclic reference detected while serializing object"

/-- Model of `_to_serializable_dict` over a heap, with the active-path set
`seen`.  Primitives pass through before the guard; for a reference the
identity is checked against `seen` (raising the recursion error), the cell
is fetched, and its children are serialized with the path extended by this
identity — the removal on completion is implicit in passing the extended
path only downward.  Cell branches mirror the source dispatch: list → JSON
array, tuple and set → marker records, dict → `DICT` record with keys passed
through, `__dict__` object → `(CLASS, MODULE, STATE)` record whose state is
the serialized attribute dict. -/
def serHeap (H : SHeap) : Nat → List Nat → HVal → Except SerErr JTree
  | 0, _, _ => .error .fuelOut
  | f + 1, seen, v =>
    match v with
    | .prim p => .ok (primTree p)
    | .ref a =>
      if a ∈ seen then .error cycleErr
      else
        match hlookup H a with
        | Option.none => .error (.typeError "dangling reference")
        | some (.list xs) => do
          let ts ← mapExc (serHeap H f (a :: seen)) xs
          .ok (.arr ts)
        | some (.tuple xs) => do
          let ts ← mapExc (serHeap H f (a :: seen)) xs
          .ok (.obj [(.kstr Markers.TUPLE, .arr ts)])
        | some (.set xs) => do
          let ts ← mapExc (serHeap H f (a :: seen)) xs
          .ok (.obj [(.kstr Markers.SET, .arr ts)])
        | some (.dict kvs) => do
          let ts ← mapExc (fun kv : String × HVal => do
              let t ← serHeap H f (a :: seen) kv.2
              .ok (PKey.kstr kv.1, t)) kvs
          .ok (.obj [(.kstr Markers.DICT, .obj ts)])
        | some (.objd m c attrs) => do
          let ts ← mapExc (fun kv : String × HVal => do
              let t ← serHeap H f (a :: seen) kv.2
              .ok (PKey.kstr kv.1, t)) attrs
          .ok (.obj [(.kstr Markers.CLASS, .str c), (.kstr Markers.MODULE, .str m),
                     (.kstr Markers.STATE, .obj [(.kstr Markers.DICT, .obj ts)])])

/-- Child values of a cell: what the serializer recurses into. -/
def cellChildren : SCell → List HVal
  | .list xs => xs
  | .tuple xs => xs
  | .set xs => xs
  | .dict kvs => kvs.map Prod.snd
  | .objd _ _ attrs => attrs.map Prod.snd

/-- Reachability of an address from a value in the heap (the addresses the
serializer visits). -/
inductive Reaches (H : SHeap) : HVal → Nat → Prop
  | refl (a : Nat) : Reaches H (.ref a) a
  | step (a : Nat) (c : SCell) (w : HVal) (b : Nat) :
      hlookup H a = some c → w ∈ cellChildren c → Reaches H w b →
      Reaches H (.ref a) b

/-- A value's immediate reference (if any) resolves in the heap. -/
def valClosed (H : SHeap) : HVal → Bool
  | .prim _ => true
  | .ref b => (hlookup H b).isSome

/-- Every reference stored in any cell of the heap resolves. -/
def heapClosed (H : SHeap) : Bool :=
  H.all (fun kv => (cellChildren kv.2).all (valClosed H))

theorem hlookup_mem : ∀ (H : SHeap) (a : Nat) (c : SCell),
    hlookup H a = some c → (a, c) ∈ H := by
  intro H
  induction H with
  | nil => intro a c h; simp [hlookup] at h
  | cons kv rest ihl =>
    intro a c h
    rcases kv with ⟨b, c2⟩
    by_cases hb : b = a
    · subst hb
      simp [hlookup] at h
      simp [h]
    · simp [hlookup, hb] at h
      exact List.mem_cons_of_mem _ (ihl a c h)

/-- Successful `mapExc` means success on every input element. -/
theorem mapExc_ok_input (g : α → Except SerErr β) :
    ∀ xs ys, mapExc g xs = .ok ys → ∀ x ∈ xs, ∃ y, g x = .ok y := by
  intro xs
  induction xs with
  | nil => intro ys h x hx; simp at hx
  | cons x0 xs ihl =>
    intro ys h x hx
    cases hx0 : g x0 with
    | error e => simp [mapExc, hx0] at h
    | ok t =>
      cases hxs : mapExc g xs with
      | error e => simp [mapExc, hx0, hxs] at h
      | ok ts =>
        rcases List.mem_cons.mp hx with rfl | hmem
        · exact ⟨t, hx0⟩
        · exact ihl ts hxs x hmem

/-- Inversion of a successful serialization of a reference: the address was
not on the path, its cell exists, and every child serializes with the
extended path at one less fuel. -/
theorem serHeap_ok_children (H : SHeap) (f : Nat) (seen : List Nat) (a : Nat)
    (t : JTree) (h : serHeap H (f + 1) seen (.ref a) = .ok t) :
    a ∉ seen ∧ ∃ c, hlookup H a = some c ∧
      ∀ w ∈ cellChildren c, ∃ t2, serHeap H f (a :: seen) w = .ok t2 := by
  by_cases hs : a ∈ seen
  · simp [serHeap, hs] at h
  refine ⟨hs, ?_⟩
  cases hlk : hlookup H a with
  | none => simp [serHeap, hs, hlk] at h
  | some c =>
    refine ⟨c, rfl, ?_⟩
    cases c with
    | list xs =>
      simp only [serHeap, hs, if_neg, ite_false, hlk] at h
      cases hmx : mapExc (serHeap H f (a :: seen)) xs with
      | error e => rw [hmx] at h; simp at h
      | ok ts =>
        intro w hw
        exact mapExc_ok_input _ xs ts hmx w hw
    | tuple xs =>
      simp only [serHeap, hs, if_neg, ite_false, hlk] at h
      cases hmx : mapExc (serHeap H f (a :: seen)) xs with
      | error e => rw [hmx] at h; simp at h
      | ok ts =>
        intro w hw
        exact mapExc_ok_input _ xs ts hmx w hw
    | set xs =>
      simp only [serHeap, hs, if_neg, ite_false, hlk] at h
      cases hmx : mapExc (serHeap H f (a :: seen)) xs with
      | error e => rw [hmx] at h; simp at h
      | ok ts =>
        intro w hw
        exact mapExc_ok_input _ xs ts hmx w hw
    | dict kvs =>
      simp only [serHeap, hs, if_neg, ite_false, hlk] at h
      cases hmx : mapExc (fun kv : String × HVal => do
          let t ← serHeap H f (a :: seen) kv.2
          Except.ok (PKey.kstr kv.1, t)) kvs with
      | error e => rw [hmx] at h; simp at h
      | ok ts =>
        intro w hw
        simp [cellChildren] at hw
        obtain ⟨k, hk⟩ := hw
        obtain ⟨y, hy⟩ := mapExc_ok_input _ kvs ts hmx (k, w) hk
        cases hsw : serHeap H f (a :: seen) w with
        | error e => simp [hsw] at hy
        | ok t2 => exact ⟨t2, rfl⟩
    | objd m c2 attrs =>
      simp only [serHeap, hs, if_neg, ite_false, hlk] at h
      cases hmx : mapExc (fun kv : String × HVal => do
          let t ← serHeap H f (a :: seen) kv.2
          Except.ok (PKey.kstr kv.1, t)) attrs with
      | error e => rw [hmx] at h; simp at h
      | ok ts =>
        intro w hw
        simp [cellChildren] at hw
        obtain ⟨k, hk⟩ := hw
        obtain ⟨y, hy⟩ := mapExc_ok_input _ attrs ts hmx (k, w) hk
        cases hsw : serHeap H f (a :: seen) w with
        | error e => simp [hsw] at hy
        | ok t2 => exact ⟨t2, rfl⟩

/-- A successful serialization never visits an address already on the path:
no address reachable from the serialized value lies in `seen`. -/
theorem serHeap_ok_not_seen (H : SHeap) :
    ∀ (v : HVal) (b : Nat), Reaches H v b →
      ∀ (f : Nat) (seen : List Nat) (t : JTree),
        serHeap H f seen v = .ok t → b ∉ seen := by
  intro v b hre
  induction hre with
  | refl a =>
    intro f seen t h
    cases f with
    | zero => simp [serHeap] at h
    | succ f => exact (serHeap_ok_children H f seen a t h).1
  | step a c w b hlk hw hre2 ih =>
    intro f seen t h
    cases f with
    | zero => simp [serHeap] at h
    | succ f =>
      obtain ⟨hns, c2, hlk2, hch⟩ := serHeap_ok_children H f seen a t h
      rw [hlk] at hlk2
      obtain ⟨t2, ht2⟩ := hch w (by rw [← Option.some.injEq] at hlk2; simp at hlk2; exact hlk2 ▸ hw)
      have := ih f (a :: seen) t2 ht2
      intro hb
      exact this (List.mem_cons_of_mem a hb)

/-- Every address reachable from a successfully serialized value is itself
successfully serialized at some point of the run. -/
theorem serHeap_ok_reach (H : SHeap) :
    ∀ (v : HVal) (b : Nat), Reaches H v b →
      ∀ (f : Nat) (seen : List Nat) (t : JTree),
        serHeap H f seen v = .ok t →
        ∃ f2 s2 t2, serHeap H (f2 + 1) s2 (.ref b) = .ok t2 := by
  intro v b hre
  induction hre with
  | refl a =>
    intro f seen t h
    cases f with
    | zero => simp [serHeap] at h
    | succ f => exact ⟨f, seen, t, h⟩
  | step a c w b hlk hw hre2 ih =>
    intro f seen t h
    cases f with
    | zero => simp [serHeap] at h
    | succ f =>
      obtain ⟨hns, c2, hlk2, hch⟩ := serHeap_ok_children H f seen a t h
      rw [hlk] at hlk2
      obtain ⟨t2, ht2⟩ := hch w (by rw [← Option.some.injEq] at hlk2; simp at hlk2; exact hlk2 ▸ hw)
      exact ih f (a :: seen) t2 ht2

/-- Number of heap addresses not yet on the path: the measure that bounds
the remaining recursion depth of the serializer. -/
def countNotSeen (H : SHeap) (seen : List Nat) : Nat :=
  ((H.map Prod.fst).filter (fun k => !(decide (k ∈ seen)))).length

theorem length_filter_mono (l : List α) (p q : α → Bool)
    (h : ∀ x, p x = true → q x = true) :
    (l.filter p).length ≤ (l.filter q).length := by
  induction l with
  | nil => simp
  | cons x xs ihl =>
    by_cases hp : p x = true
    · simp [List.filter_cons, hp, h x hp]
      omega
    · simp only [List.filter_cons]
      rw [if_neg (by simp [hp])]
      by_cases hq : q x = true
      · rw [if_pos (by simp [hq])]
        simp
        omega
      · rw [if_neg (by simp [hq])]
        exact ihl

theorem filter_notSeen_cons_lt (keys : List Nat) (seen : List Nat) (a : Nat)
    (ha : a ∈ keys) (hns : a ∉ seen) :
    (keys.filter (fun k => !(decide (k ∈ a :: seen)))).length <
    (keys.filter (fun k => !(decide (k ∈ seen)))).length := by
  induction keys with
  | nil => simp at ha
  | cons k rest ihl =>
    simp only [List.filter_cons]
    by_cases hk : k = a
    · subst hk
      rw [if_neg (by simp), if_pos (by simp [hns])]
      have hmono := length_filter_mono rest (fun x => !(decide (x ∈ k :: seen)))
        (fun x => !(decide (x ∈ seen)))
        (by intro x hx; simp at hx ⊢; exact hx.2)
      simp only [List.length_cons]
      omega
    · rcases List.mem_cons.mp ha with heq | hmem
      · exact absurd heq.symm hk
      · have hIH := ihl hmem
        have h3 : (!(decide (k ∈ a :: seen))) = (!(decide (k ∈ seen))) := by
          simp [List.mem_cons, hk]
        rw [h3]
        by_cases hkb : (!(decide (k ∈ seen))) = true
        · rw [if_pos hkb]
          rw [if_pos hkb]
          simp only [List.length_cons]
          omega
        · rw [if_neg hkb]
          rw [if_neg hkb]
          exact hIH

theorem countNotSeen_cons_lt (H : SHeap) (seen : List Nat) (a : Nat)
    (ha : a ∈ H.map Prod.fst) (hns : a ∉ seen) :
    countNotSeen H (a :: seen) < countNotSeen H seen :=
  filter_notSeen_cons_lt (H.map Prod.fst) seen a ha hns

/-- Combine pointwise totality through `mapExc`: if every element either
serializes or raises the cycle error, so does the list. -/
theorem mapExc_total (g : α → Except SerErr β) (E : SerErr) :
    ∀ xs : List α, (∀ x ∈ xs, (∃ y, g x = .ok y) ∨ g x = .error E) →
      (∃ ys, mapExc g xs = .ok ys) ∨ mapExc g xs = .error E := by
  intro xs h
  induction xs with
  | nil => exact .inl ⟨[], rfl⟩
  | cons x xs ihl =>
    rcases h x (by simp) with ⟨y, hy⟩ | hy
    · rcases ihl (fun z hz => h z (by simp [hz])) with ⟨ys, hys⟩ | hys
      · exact .inl ⟨y :: ys, by simp [mapExc, hy, hys]⟩
      · exact .inr (by simp [mapExc, hy, hys])
    · exact .inr (by simp [mapExc, hy])

/-- Totality of the heap serializer on closed heaps: with fuel beyond the
number of unvisited addresses a run either succeeds or raises the cycle
error — it never exhausts fuel (the model rendering of "never
stack-overflows or hangs") and never hits a dangling reference. -/
theorem serHeap_total (H : SHeap) (hHC : heapClosed H = true) :
    ∀ (f : Nat) (seen : List Nat) (v : HVal), valClosed H v = true →
      countNotSeen H seen < f →
      (∃ t, serHeap H f seen v = .ok t) ∨ serHeap H f seen v = .error cycleErr := by
  intro f
  induction f with
  | zero => intro seen v _ hb; omega
  | succ f ih =>
    intro seen v hvc hb
    cases v with
    | prim p => exact .inl ⟨primTree p, rfl⟩
    | ref a =>
      by_cases hs : a ∈ seen
      · exact .inr (by simp [serHeap, hs])
      · cases hlk : hlookup H a with
        | none => simp [valClosed, hlk] at hvc
        | some c =>
          have hmem : (a, c) ∈ H := hlookup_mem H a c hlk
          have hamem : a ∈ H.map Prod.fst := by
            simpa using List.mem_map_of_mem Prod.fst hmem
          have hdec : countNotSeen H (a :: seen) < f := by
            have := countNotSeen_cons_lt H seen a hamem hs
            omega
          have hallc := List.all_eq_true.mp hHC (a, c) hmem
          simp only at hallc
          have hch : ∀ w ∈ cellChildren c, valClosed H w = true :=
            fun w hw => List.all_eq_true.mp hallc w hw
          have hpt : ∀ w ∈ cellChildren c,
              (∃ t2, serHeap H f (a :: seen) w = .ok t2) ∨
                serHeap H f (a :: seen) w = .error cycleErr :=
            fun w hw => ih (a :: seen) w (hch w hw) hdec
          cases c with
          | list xs =>
            rcases mapExc_total (serHeap H f (a :: seen)) cycleErr xs
                (by simpa [cellChildren] using hpt) with ⟨ts, hts⟩ | hts
            · exact .inl ⟨.arr ts, by simp [serHeap, hs, hlk, hts]⟩
            · exact .inr (by simp [serHeap, hs, hlk, hts])
          | tuple xs =>
            rcases mapExc_total (serHeap H f (a :: seen)) cycleErr xs
                (by simpa [cellChildren] using hpt) with ⟨ts, hts⟩ | hts
            · exact .inl ⟨.obj [(.kstr Markers.TUPLE, .arr ts)],
                by simp [serHeap, hs, hlk, hts]⟩
            · exact .inr (by simp [serHeap, hs, hlk, hts])
          | set xs =>
            rcases mapExc_total (serHeap H f (a :: seen)) cycleErr xs
                (by simpa [cellChildren] using hpt) with ⟨ts, hts⟩ | hts
            · exact .inl ⟨.obj [(.kstr Markers.SET, .arr ts)],
                by simp [serHeap, hs, hlk, hts]⟩
            · exact .inr (by simp [serHeap, hs, hlk, hts])
          | dict kvs =>
            have hkv : ∀ kv ∈ kvs,
                (∃ y, (fun kv : String × HVal => do
                    let t ← serHeap H f (a :: seen) kv.2
                    Except.ok (PKey.kstr kv.1, t)) kv = .ok y) ∨
                  (fun kv : String × HVal => do
                    let t ← serHeap H f (a :: seen) kv.2
                    Except.ok (PKey.kstr kv.1, t)) kv = .error cycleErr := by
              intro kv hkv2
              have hw : kv.2 ∈ cellChildren (SCell.dict kvs) := by
                simp [cellChildren]
                exact ⟨kv.1, by simp [hkv2]⟩
              rcases hpt kv.2 hw with ⟨t2, ht2⟩ | ht2
              · exact .inl ⟨(PKey.kstr kv.1, t2), by simp [ht2]⟩
              · exact .inr (by simp [ht2])
            rcases mapExc_total _ cycleErr kvs hkv with ⟨ts, hts⟩ | hts
            · exact .inl ⟨.obj [(.kstr Markers.DICT, .obj ts)],
                by simp [serHeap, hs, hlk, hts]⟩
            · exact .inr (by simp [serHeap, hs, hlk, hts])
          | objd m c2 attrs =>
            have hkv : ∀ kv ∈ attrs,
                (∃ y, (fun kv : String × HVal => do
                    let t ← serHeap H f (a :: seen) kv.2
                    Except.ok (PKey.kstr kv.1, t)) kv = .ok y) ∨
                  (fun kv : String × HVal => do
                    let t ← serHeap H f (a :: seen) kv.2
                    Except.ok (PKey.kstr kv.1, t)) kv = .error cycleErr := by
              intro kv hkv2
              have hw : kv.2 ∈ cellChildren (SCell.objd m c2 attrs) := by
                simp [cellChildren]
                exact ⟨kv.1, by simp [hkv2]⟩
              rcases hpt kv.2 hw with ⟨t2, ht2⟩ | ht2
              · exact .inl ⟨(PKey.kstr kv.1, t2), by simp [ht2]⟩
              · exact .inr (by simp [ht2])
            rcases mapExc_total _ cycleErr attrs hkv with ⟨ts, hts⟩ | hts
            · exact .inl ⟨.obj [(.kstr Markers.CLASS, .str c2),
                  (.kstr Markers.MODULE, .str m),
                  (.kstr Markers.STATE, .obj [(.kstr Markers.DICT, .obj ts)])],
                by simp [serHeap, hs, hlk, hts]⟩
            · exact .inr (by simp [serHeap, hs, hlk, hts])

theorem countNotSeen_nil (H : SHeap) : countNotSeen H [] = H.length := by
  unfold countNotSeen
  simp

/-- Claim C6.  First part: for any closed heap whose reachable part contains
a cycle (an address `a` reachable from the root whose cell reaches `a`
again), serialization raises the recursion error — with any fuel beyond the
heap size, so the run neither diverges nor exhausts the stack, and no other
outcome (success, other error) occurs.  Second part: the identity of a
compound value is held in the path set only while that value is being
serialized, so a diamond heap in which the same list object is reachable
via two sibling paths serializes successfully, emitting the shared object
twice. -/
theorem c6_cycle_rejection :
    (∀ (H : SHeap) (root : HVal) (f a : Nat) (c : SCell) (w : HVal),
        heapClosed H = true → valClosed H root = true → H.length < f →
        Reaches H root a → hlookup H a = some c → w ∈ cellChildren c →
        Reaches H w a →
        serHeap H f [] root = .error cycleErr) ∧
    serHeap [(0, SCell.list [HVal.ref 1, HVal.ref 1]),
             (1, SCell.list [HVal.prim (HPrim.pint 1)])] 4 [] (.ref 0) =
      .ok (.arr [.arr [.int 1], .arr [.int 1]]) := by
  constructor
  · intro H root f a c w hHC hvc hlen hra hlk hw hwa
    have hbound : countNotSeen H [] < f := by rw [countNotSeen_nil]; omega
    rcases serHeap_total H hHC f [] root hvc hbound with ⟨t, ht⟩ | herr
    · exfalso
      obtain ⟨f2, s2, t2, h2⟩ := serHeap_ok_reach H root a hra f [] t ht
      obtain ⟨hns, c2, hlk2, hch⟩ := serHeap_ok_children H f2 s2 a t2 h2
      rw [hlk] at hlk2
      rw [← Option.some.injEq] at hlk2
      simp at hlk2
      obtain ⟨tw, htw⟩ := hch w (hlk2 ▸ hw)
      have := serHeap_ok_not_seen H w a hwa f2 (a :: s2) tw htw
      exact this (List.mem_cons_self a s2)
    · exact herr
  · rfl

/-- Witness for the cyclic part of `c6_cycle_rejection`: the one-cell heap
whose list contains itself. -/
theorem c6_cycle_rejection_witness :
    serHeap [(0, SCell.list [HVal.ref 0])] 2 [] (.ref 0) = .error cycleErr :=
  c6_cycle_rejection.1 [(0, SCell.list [HVal.ref 0])] (.ref 0) 2 0
    (SCell.list [HVal.ref 0]) (.ref 0) (by decide) (by decide) (by decide)
    (Reaches.refl 0) rfl (by decide) (Reaches.refl 0)

/-! ## Heap model of the transformer (claims C2, C3, C4, C10)

`_ObjectReconstructor.reconstruct` mutates: it allocates new containers,
installs placeholders in `seen_ids` before recursing, and fills mutable
placeholders afterwards.  The model threads a state holding the heap (which
only grows: input cells are never modified), the next fresh address, the
`seen_ids` memo map from original identity to reconstructed value, and the
`any_replacements` flag.  Python primitives are immediate values here; the
`seen_ids` entries the source makes for primitive ids are not modelled
(transform functions in the claims are pure, so memoizing a primitive's
transform result is unobservable), and `new_item is not item` on primitives
is modelled as value equality (CPython interns the small constants used by
the claims). -/

/-- Transformer heap cells: the standard container kinds of
`_is_standard_mapping` / `_is_standard_iterable` exercised by the claims.
Dictionary keys are reconstructed too, so they are full values. -/
inductive TCell where
  | list (xs : List HVal)
  | tuple (xs : List HVal)
  | set (xs : List HVal)
  | dict (kvs : List (HVal × HVal))
deriving DecidableEq, Repr

/-- The transformer heap: addresses to cells (grows during a call). -/
abbrev THeap := Nat → Option TCell

/-- Build a heap from an association list (for concrete runs). -/
def mkTHeap : List (Nat × TCell) → THeap
  | [] => fun _ => Option.none
  | (a, c) :: rest => fun b => if b = a then some c else mkTHeap rest b

/-- Transformer state: heap, next fresh address, the `seen_ids` memo, and
the `any_replacements` flag. -/
structure TSt where
  heap : THeap
  next : Nat
  seen : Nat → Option HVal
  anyRepl : Bool

def updateHeap (H : THeap) (a : Nat) (c : TCell) : THeap :=
  fun b => if b = a then some c else H b

def updateSeen (m : Nat → Option HVal) (a : Nat) (v : HVal) : Nat → Option HVal :=
  fun b => if b = a then some v else m b

/-- Python types of the modelled values, for the `isinstance` test. -/
inductive PyKind where
  | noneK
  | boolK
  | intK
  | strK
  | listK
  | tupleK
  | setK
  | dictK
deriving DecidableEq, Repr

def primKind : HPrim → PyKind
  | .pnone => .noneK
  | .pbool _ => .boolK
  | .pint _ => .intK
  | .pstr _ => .strK

def cellKind : TCell → PyKind
  | .list _ => .listK
  | .tuple _ => .tupleK
  | .set _ => .setK
  | .dict _ => .dictK

/-- A classinfo argument abstracted to its type-membership test: a single
type, a tuple of types or a union all denote a predicate on the value's
type, which is what `isinstance(original, classinfo)` consults. -/
abbrev TClassInfo := PyKind → Bool

/-- Python `is` on modelled values: references are identical when their
addresses agree; primitives are compared by value (interning). -/
def sameObj : HVal → HVal → Bool
  | .ref a, .ref b => a == b
  | .prim p, .prim q => p == q
  | _, _ => false

/-- Model of `_reconstruct_object_attributes` applied to a transform
result.  In this grammar no value owns `__dict__`, `__slots__` or dataclass
fields: primitives are atomic and the cells are built-in containers, so the
object is returned unchanged; a dangling reference is stuck. -/
def reconAttrs (s : TSt) (v : HVal) : Option (HVal × TSt) :=
  match v with
  | .prim _ => some (v, s)
  | .ref b =>
    match s.heap b with
    | some _ => some (v, s)
    | Option.none => Option.none

/-- Reconstruct the items of an iterable (`_reconstruct_iterable_items`)
with the element-level reconstruction `g`: returns the changed flag (any
`new_item is not item`), the new items, and the final state. -/
def reconListSt (g : HVal → TSt → Option (HVal × TSt)) :
    List HVal → TSt → Option (Bool × List HVal × TSt)
  | [], s => some (false, [], s)
  | x :: xs, s =>
    match g x s with
    | some (r, s1) =>
      match reconListSt g xs s1 with
      | some (ch, rs, s2) => some ((ch || !(sameObj r x)), r :: rs, s2)
      | Option.none => Option.none
    | Option.none => Option.none

/-- Reconstruct the key-value pairs of a mapping
(`_reconstruct_mapping_items`): both keys and values are reconstructed. -/
def reconKVsSt (g : HVal → TSt → Option (HVal × TSt)) :
    List (HVal × HVal) → TSt → Option (Bool × List (HVal × HVal) × TSt)
  | [], s => some (false, [], s)
  | kv :: kvs, s =>
    match g kv.1 s with
    | some (rk, s1) =>
      match g kv.2 s1 with
      | some (rv, s2) =>
        match reconKVsSt g kvs s2 with
        | some (ch, rs, s3) =>
          some ((ch || !(sameObj rk kv.1) || !(sameObj rv kv.2)), (rk, rv) :: rs, s3)
        | Option.none => Option.none
      | Option.none => Option.none
    | Option.none => Option.none

/-- Model of `_ObjectReconstructor.reconstruct`, with fuel.  Branch order
follows the source: the `seen_ids` memo first, then the `isinstance` test
against classinfo *before* the atomic early-return, then the atomic return,
then dispatch on the container kind.  The mutable containers (list, dict)
allocate their placeholder before recursing into children; the immutable
branch records the original as placeholder, reconstructs bottom-up, and
allocates the rebuilt container afterwards (`_safe_recreate_container`
succeeds outright for tuple and set).  When nothing changed the original is
recorded and returned. -/
def reconstruct (ci : TClassInfo) (fn : HVal → HVal) (deep : Bool) :
    Nat → HVal → TSt → Option (HVal × TSt)
  | 0, _, _ => Option.none
  | f + 1, v, s =>
    match v with
    | .prim p =>
      if ci (primKind p) then
        -- _reconstruct_target_type on a primitive (no identity slot used)
        let s1 : TSt := { s with anyRepl := true }
        let transformed := fn (.prim p)
        if deep then reconAttrs s1 transformed else some (transformed, s1)
      else some (.prim p, s)
    | .ref a =>
      match s.seen a with
      | some r => some (r, s)
      | Option.none =>
        match s.heap a with
        | Option.none => Option.none
        | some c =>
          if ci (cellKind c) then
            -- _reconstruct_target_type: placeholder, transform, optionally
            -- recurse into the transformed result, record the final value
            let s1 : TSt :=
              { s with seen := updateSeen s.seen a (HVal.ref a), anyRepl := true }
            let transformed := fn (.ref a)
            match (if deep then reconAttrs s1 transformed
                   else some (transformed, s1)) with
            | some (r, s2) => some (r, { s2 with seen := updateSeen s2.seen a r })
            | Option.none => Option.none
          else
            match c with
            | .list xs =>
              let a2 := s.next
              let s1 : TSt := { heap := updateHeap s.heap a2 (.list []),
                                next := s.next + 1,
                                seen := updateSeen s.seen a (.ref a2),
                                anyRepl := s.anyRepl }
              match reconListSt (reconstruct ci fn deep f) xs s1 with
              | some (changed, items, s2) =>
                if changed then
                  some (.ref a2,
                    { s2 with heap := updateHeap s2.heap a2 (.list items) })
                else
                  some (.ref a, { s2 with seen := updateSeen s2.seen a (.ref a) })
              | Option.none => Option.none
            | .tuple xs =>
              let s1 : TSt := { s with seen := updateSeen s.seen a (.ref a) }
              match reconListSt (reconstruct ci fn deep f) xs s1 with
              | some (changed, items, s2) =>
                if changed then
                  let a3 := s2.next
                  some (.ref a3,
                    { heap := updateHeap s2.heap a3 (.tuple items),
                      next := s2.next + 1,
                      seen := updateSeen s2.seen a (.ref a3),
                      anyRepl := s2.anyRepl })
                else some (.ref a, s2)
              | Option.none => Option.none
            | .set xs =>
              let s1 : TSt := { s with seen := updateSeen s.seen a (.ref a) }
              match reconListSt (reconstruct ci fn deep f) xs s1 with
              | some (changed, items, s2) =>
                if changed then
                  let a3 := s2.next
                  some (.ref a3,
                    { heap := updateHeap s2.heap a3 (.set items),
                      next := s2.next + 1,
                      seen := updateSeen s2.seen a (.ref a3),
                      anyRepl := s2.anyRepl })
                else some (.ref a, s2)
              | Option.none => Option.none
            | .dict kvs =>
              let a2 := s.next
              let s1 : TSt := { heap := updateHeap s.heap a2 (.dict []),
                                next := s.next + 1,
                                seen := updateSeen s.seen a (.ref a2),
                                anyRepl := s.anyRepl }
              match reconKVsSt (reconstruct ci fn deep f) kvs s1 with
              | some (changed, items, s2) =>
                if changed then
                  some (.ref a2,
                    { s2 with heap := updateHeap s2.heap a2 (.dict items) })
                else
                  some (.ref a, { s2 with seen := updateSeen s2.seen a (.ref a) })
              | Option.none => Option.none

/-- Model of `transform_instances_inside_composite_object`: run the
reconstructor from a fresh state and return the reconstructed value if any
replacement happened, else the original object itself.  The eager
`classinfo`/callable validation is outside the model (the model's classinfo
and function arguments are well-typed by construction), and iterator roots
do not occur in this grammar. -/
def transformInstancesInsideCompositeObject (H0 : THeap) (n0 : Nat)
    (obj : HVal) (ci : TClassInfo) (fn : HVal → HVal) (deep : Bool) (f : Nat) :
    Option (HVal × TSt) :=
  match reconstruct ci fn deep f obj ⟨H0, n0, fun _ => Option.none, false⟩ with
  | some (r, s1) => some ((if s1.anyRepl then r else obj), s1)
  | Option.none => Option.none

/-- Match test of `isinstance(original, classinfo)` on a heap value. -/
def matchH (H : THeap) (ci : TClassInfo) : HVal → Bool
  | .prim p => ci (primKind p)
  | .ref a =>
    match H a with
    | some c => ci (cellKind c)
    | Option.none => false

/-- Children of a transformer cell (what reconstruction recurses into):
elements for the iterable kinds, keys and values for mappings. -/
def tcellChildren : TCell → List HVal
  | .list xs => xs
  | .tuple xs => xs
  | .set xs => xs
  | .dict kvs => kvs.map Prod.fst ++ kvs.map Prod.snd

/-- Reachability between values in a transformer heap. -/
inductive TReach (H : THeap) : HVal → HVal → Prop
  | refl (v : HVal) : TReach H v v
  | step (a : Nat) (c : TCell) (w u : HVal) :
      H a = some c → w ∈ tcellChildren c → TReach H w u → TReach H (.ref a) u

/-- Run invariant for one transform call: fresh addresses stay above the
input heap bound `n0`, and input cells are never modified. -/
def TInv (H0 : THeap) (n0 : Nat) (s : TSt) : Prop :=
  n0 ≤ s.next ∧ ∀ a, a < n0 → s.heap a = H0 a

/-- Preservation of the no-replacement property through
`_reconstruct_iterable_items`, given it for the element-level
reconstruction. -/
theorem reconListSt_pres (g : HVal → TSt → Option (HVal × TSt))
    (H0 : THeap) (n0 : Nat) (ci : TClassInfo)
    (P : ∀ x s r s2, TInv H0 n0 s → (∀ b, x = HVal.ref b → b < n0) →
      (∀ u, TReach H0 x u → matchH H0 ci u = false) →
      g x s = some (r, s2) → s2.anyRepl = s.anyRepl ∧ TInv H0 n0 s2) :
    ∀ xs s ch rs s2, TInv H0 n0 s →
      (∀ x ∈ xs, (∀ b, x = HVal.ref b → b < n0) ∧
        (∀ u, TReach H0 x u → matchH H0 ci u = false)) →
      reconListSt g xs s = some (ch, rs, s2) →
      s2.anyRepl = s.anyRepl ∧ TInv H0 n0 s2 := by
  intro xs
  induction xs with
  | nil =>
    intro s ch rs s2 hInv _ h
    simp [reconListSt] at h
    obtain ⟨h1, h2, h3⟩ := h
    rw [← h3]
    exact ⟨rfl, hInv⟩
  | cons x xs ihl =>
    intro s ch rs s2 hInv hxs h
    simp only [reconListSt] at h
    cases hg : g x s with
    | none => rw [hg] at h; simp at h
    | some out1 =>
      obtain ⟨r, s1⟩ := out1
      rw [hg] at h
      simp only [] at h
      cases hrest : reconListSt g xs s1 with
      | none => rw [hrest] at h; simp at h
      | some out2 =>
        obtain ⟨ch2, rs2, s3⟩ := out2
        rw [hrest] at h
        simp at h
        obtain ⟨hc, hr, hs⟩ := h
        have h1 := P x s r s1 hInv (hxs x (by simp)).1 (hxs x (by simp)).2 hg
        have h2 := ihl s1 ch2 rs2 s3 h1.2 (fun y hy => hxs y (by simp [hy])) hrest
        rw [← hs]
        exact ⟨by rw [h2.1, h1.1], h2.2⟩

/-- Preservation of the no-replacement property through
`_reconstruct_mapping_items`. -/
theorem reconKVsSt_pres (g : HVal → TSt → Option (HVal × TSt))
    (H0 : THeap) (n0 : Nat) (ci : TClassInfo)
    (P : ∀ x s r s2, TInv H0 n0 s → (∀ b, x = HVal.ref b → b < n0) →
      (∀ u, TReach H0 x u → matchH H0 ci u = false) →
      g x s = some (r, s2) → s2.anyRepl = s.anyRepl ∧ TInv H0 n0 s2) :
    ∀ kvs s ch rs s2, TInv H0 n0 s →
      (∀ kv ∈ kvs, ((∀ b, Prod.fst kv = HVal.ref b → b < n0) ∧
          (∀ u, TReach H0 (Prod.fst kv) u → matchH H0 ci u = false)) ∧
        ((∀ b, Prod.snd kv = HVal.ref b → b < n0) ∧
          (∀ u, TReach H0 (Prod.snd kv) u → matchH H0 ci u = false))) →
      reconKVsSt g kvs s = some (ch, rs, s2) →
      s2.anyRepl = s.anyRepl ∧ TInv H0 n0 s2 := by
  intro kvs
  induction kvs with
  | nil =>
    intro s ch rs s2 hInv _ h
    simp [reconKVsSt] at h
    obtain ⟨h1, h2, h3⟩ := h
    rw [← h3]
    exact ⟨rfl, hInv⟩
  | cons kv kvs ihl =>
    intro s ch rs s2 hInv hxs h
    simp only [reconKVsSt] at h
    cases hg : g kv.1 s with
    | none => rw [hg] at h; simp at h
    | some out1 =>
      obtain ⟨rk, s1⟩ := out1
      rw [hg] at h
      simp only [] at h
      cases hg2 : g kv.2 s1 with
      | none => rw [hg2] at h; simp at h
      | some out2 =>
        obtain ⟨rv, s2b⟩ := out2
        rw [hg2] at h
        simp only [] at h
        cases hrest : reconKVsSt g kvs s2b with
        | none => rw [hrest] at h; simp at h
        | some out3 =>
          obtain ⟨ch2, rs2, s3⟩ := out3
          rw [hrest] at h
          simp at h
          obtain ⟨hc, hr, hs⟩ := h
          have h1 := P kv.1 s rk s1 hInv ((hxs kv (by simp)).1).1
            ((hxs kv (by simp)).1).2 hg
          have h2 := P kv.2 s1 rv s2b h1.2 ((hxs kv (by simp)).2).1
            ((hxs kv (by simp)).2).2 hg2
          have h3 := ihl s2b ch2 rs2 s3 h2.2 (fun y hy => hxs y (by simp [hy]))
            hrest
          rw [← hs]
          exact ⟨by rw [h3.1, h2.1, h1.1], h3.2⟩

/-- Unfolding of the list branch of `reconstruct`. -/
theorem reconstruct_list_eq (ci : TClassInfo) (fn : HVal → HVal) (deep : Bool)
    (f a : Nat) (s : TSt) (xs : List HVal)
    (hseen : s.seen a = Option.none) (hheap : s.heap a = some (.list xs))
    (hci : ci PyKind.listK = false) :
    reconstruct ci fn deep (f + 1) (.ref a) s =
      match reconListSt (reconstruct ci fn deep f) xs
          ⟨updateHeap s.heap s.next (.list []), s.next + 1,
            updateSeen s.seen a (.ref s.next), s.anyRepl⟩ with
      | some (changed, items, s2) =>
        if changed then
          some (.ref s.next, { s2 with heap := updateHeap s2.heap s.next (.list items) })
        else some (.ref a, { s2 with seen := updateSeen s2.seen a (.ref a) })
      | Option.none => Option.none := by
  simp [reconstruct, hseen, hheap, cellKind, hci]

/-- Unfolding of the tuple branch of `reconstruct`. -/
theorem reconstruct_tuple_eq (ci : TClassInfo) (fn : HVal → HVal) (deep : Bool)
    (f a : Nat) (s : TSt) (xs : List HVal)
    (hseen : s.seen a = Option.none) (hheap : s.heap a = some (.tuple xs))
    (hci : ci PyKind.tupleK = false) :
    reconstruct ci fn deep (f + 1) (.ref a) s =
      match reconListSt (reconstruct ci fn deep f) xs
          { s with seen := updateSeen s.seen a (.ref a) } with
      | some (changed, items, s2) =>
        if changed then
          some (.ref s2.next,
            ⟨updateHeap s2.heap s2.next (.tuple items), s2.next + 1,
              updateSeen s2.seen a (.ref s2.next), s2.anyRepl⟩)
        else some (.ref a, s2)
      | Option.none => Option.none := by
  simp [reconstruct, hseen, hheap, cellKind, hci]

/-- Unfolding of the set branch of `reconstruct`. -/
theorem reconstruct_set_eq (ci : TClassInfo) (fn : HVal → HVal) (deep : Bool)
    (f a : Nat) (s : TSt) (xs : List HVal)
    (hseen : s.seen a = Option.none) (hheap : s.heap a = some (.set xs))
    (hci : ci PyKind.setK = false) :
    reconstruct ci fn deep (f + 1) (.ref a) s =
      match reconListSt (reconstruct ci fn deep f) xs
          { s with seen := updateSeen s.seen a (.ref a) } with
      | some (changed, items, s2) =>
        if changed then
          some (.ref s2.next,
            ⟨updateHeap s2.heap s2.next (.set items), s2.next + 1,
              updateSeen s2.seen a (.ref s2.next), s2.anyRepl⟩)
        else some (.ref a, s2)
      | Option.none => Option.none := by
  simp [reconstruct, hseen, hheap, cellKind, hci]

/-- Unfolding of the dict branch of `reconstruct`. -/
theorem reconstruct_dict_eq (ci : TClassInfo) (fn : HVal → HVal) (deep : Bool)
    (f a : Nat) (s : TSt) (kvs : List (HVal × HVal))
    (hseen : s.seen a = Option.none) (hheap : s.heap a = some (.dict kvs))
    (hci : ci PyKind.dictK = false) :
    reconstruct ci fn deep (f + 1) (.ref a) s =
      match reconKVsSt (reconstruct ci fn deep f) kvs
          ⟨updateHeap s.heap s.next (.dict []), s.next + 1,
            updateSeen s.seen a (.ref s.next), s.anyRepl⟩ with
      | some (changed, items, s2) =>
        if changed then
          some (.ref s.next, { s2 with heap := updateHeap s2.heap s.next (.dict items) })
        else some (.ref a, { s2 with seen := updateSeen s2.seen a (.ref a) })
      | Option.none => Option.none := by
  simp [reconstruct, hseen, hheap, cellKind, hci]

/-- Core of claim C4: when no value reachable from the processed one matches
classinfo, reconstruction leaves the `any_replacements` flag unchanged (and
maintains the run invariant). -/
theorem reconstruct_noMatch (H0 : THeap) (n0 : Nat) (ci : TClassInfo)
    (fn : HVal → HVal) (deep : Bool)
    (hC : ∀ a c, H0 a = some c → ∀ w ∈ tcellChildren c, ∀ b,
      w = HVal.ref b → b < n0) :
    ∀ f : Nat, ∀ v s r s2, TInv H0 n0 s → (∀ b, v = HVal.ref b → b < n0) →
      (∀ u, TReach H0 v u → matchH H0 ci u = false) →
      reconstruct ci fn deep f v s = some (r, s2) →
      s2.anyRepl = s.anyRepl ∧ TInv H0 n0 s2 := by
  intro f
  induction f with
  | zero => intro v s r s2 _ _ _ h; simp [reconstruct] at h
  | succ f ih =>
    intro v s r s2 hInv hBased hNR h
    cases v with
    | prim p =>
      have hm : ci (primKind p) = false := hNR (.prim p) (TReach.refl _)
      simp [reconstruct, hm] at h
      obtain ⟨hr, hs⟩ := h
      rw [← hs]
      exact ⟨rfl, hInv⟩
    | ref a =>
      have ha : a < n0 := hBased a rfl
      have hha : s.heap a = H0 a := hInv.2 a ha
      cases hseen : s.seen a with
      | some r0 =>
        simp [reconstruct, hseen] at h
        obtain ⟨hr, hs⟩ := h
        rw [← hs]
        exact ⟨rfl, hInv⟩
      | none =>
        cases hH0 : H0 a with
        | none => simp [reconstruct, hseen, hha, hH0] at h
        | some c =>
          have hheap : s.heap a = some c := by rw [hha, hH0]
          have hm : ci (cellKind c) = false := by
            have hx := hNR (.ref a) (TReach.refl _)
            simp [matchH, hH0] at hx
            exact hx
          have hkids : ∀ x ∈ tcellChildren c,
              (∀ b, x = HVal.ref b → b < n0) ∧
                (∀ u, TReach H0 x u → matchH H0 ci u = false) := by
            intro x hx
            exact ⟨fun b hb => hC a c hH0 x hx b hb,
              fun u hu => hNR u (TReach.step a c x u hH0 hx hu)⟩
          cases c with
          | list xs =>
            rw [reconstruct_list_eq ci fn deep f a s xs hseen hheap hm] at h
            cases hrl : reconListSt (reconstruct ci fn deep f) xs
                ⟨updateHeap s.heap s.next (.list []), s.next + 1,
                  updateSeen s.seen a (.ref s.next), s.anyRepl⟩ with
            | none => rw [hrl] at h; simp at h
            | some out =>
              obtain ⟨ch, items, s3⟩ := out
              rw [hrl] at h
              have hInv1 : TInv H0 n0
                  (⟨updateHeap s.heap s.next (.list []), s.next + 1,
                    updateSeen s.seen a (.ref s.next), s.anyRepl⟩ : TSt) := by
                refine ⟨by have := hInv.1; simp; omega, ?_⟩
                intro b hb
                have hb2 : b ≠ s.next := by have := hInv.1; omega
                simp [updateHeap, hb2]
                exact hInv.2 b hb
              have hout := reconListSt_pres _ H0 n0 ci
                (fun x s r s2 hx1 hx2 hx3 hx4 => ih x s r s2 hx1 hx2 hx3 hx4)
                xs _ ch items s3 hInv1 (fun x hx => hkids x hx) hrl
              by_cases hch : ch = true
              · rw [hch] at h
                simp at h
                obtain ⟨hr, hs⟩ := h
                rw [← hs]
                refine ⟨by simp [hout.1], ⟨by simpa using hout.2.1, ?_⟩⟩
                intro b hb
                have hb2 : b ≠ s.next := by have := hInv.1; omega
                simp [updateHeap, hb2]
                exact hout.2.2 b hb
              · simp only [Bool.not_eq_true] at hch
                rw [hch] at h
                simp at h
                obtain ⟨hr, hs⟩ := h
                rw [← hs]
                exact ⟨by simp [hout.1], ⟨hout.2.1, hout.2.2⟩⟩
          | tuple xs =>
            rw [reconstruct_tuple_eq ci fn deep f a s xs hseen hheap hm] at h
            cases hrl : reconListSt (reconstruct ci fn deep f) xs
                { s with seen := updateSeen s.seen a (.ref a) } with
            | none => rw [hrl] at h; simp at h
            | some out =>
              obtain ⟨ch, items, s3⟩ := out
              rw [hrl] at h
              have hInv1 : TInv H0 n0
                  ({ s with seen := updateSeen s.seen a (.ref a) } : TSt) :=
                ⟨hInv.1, hInv.2⟩
              have hout := reconListSt_pres _ H0 n0 ci
                (fun x s r s2 hx1 hx2 hx3 hx4 => ih x s r s2 hx1 hx2 hx3 hx4)
                xs _ ch items s3 hInv1 (fun x hx => hkids x hx) hrl
              by_cases hch : ch = true
              · rw [hch] at h
                simp at h
                obtain ⟨hr, hs⟩ := h
                rw [← hs]
                refine ⟨by simp [hout.1], ⟨by simp; have := hout.2.1; omega, ?_⟩⟩
                intro b hb
                have hb2 : b ≠ s3.next := by have h3 := hout.2.1; omega
                simp [updateHeap, hb2]
                exact hout.2.2 b hb
              · simp only [Bool.not_eq_true] at hch
                rw [hch] at h
                simp at h
                obtain ⟨hr, hs⟩ := h
                rw [← hs]
                exact ⟨hout.1, hout.2⟩
          | set xs =>
            rw [reconstruct_set_eq ci fn deep f a s xs hseen hheap hm] at h
            cases hrl : reconListSt (reconstruct ci fn deep f) xs
                { s with seen := updateSeen s.seen a (.ref a) } with
            | none => rw [hrl] at h; simp at h
            | some out =>
              obtain ⟨ch, items, s3⟩ := out
              rw [hrl] at h
              have hInv1 : TInv H0 n0
                  ({ s with seen := updateSeen s.seen a (.ref a) } : TSt) :=
                ⟨hInv.1, hInv.2⟩
              have hout := reconListSt_pres _ H0 n0 ci
                (fun x s r s2 hx1 hx2 hx3 hx4 => ih x s r s2 hx1 hx2 hx3 hx4)
                xs _ ch items s3 hInv1 (fun x hx => hkids x hx) hrl
              by_cases hch : ch = true
              · rw [hch] at h
                simp at h
                obtain ⟨hr, hs⟩ := h
                rw [← hs]
                refine ⟨by simp [hout.1], ⟨by simp; have := hout.2.1; omega, ?_⟩⟩
                intro b hb
                have hb2 : b ≠ s3.next := by have h3 := hout.2.1; omega
                simp [updateHeap, hb2]
                exact hout.2.2 b hb
              · simp only [Bool.not_eq_true] at hch
                rw [hch] at h
                simp at h
                obtain ⟨hr, hs⟩ := h
                rw [← hs]
                exact ⟨hout.1, hout.2⟩
          | dict kvs =>
            rw [reconstruct_dict_eq ci fn deep f a s kvs hseen hheap hm] at h
            cases hrl : reconKVsSt (reconstruct ci fn deep f) kvs
                ⟨updateHeap s.heap s.next (.dict []), s.next + 1,
                  updateSeen s.seen a (.ref s.next), s.anyRepl⟩ with
            | none => rw [hrl] at h; simp at h
            | some out =>
              obtain ⟨ch, items, s3⟩ := out
              rw [hrl] at h
              have hInv1 : TInv H0 n0
                  (⟨updateHeap s.heap s.next (.dict []), s.next + 1,
                    updateSeen s.seen a (.ref s.next), s.anyRepl⟩ : TSt) := by
                refine ⟨by have := hInv.1; simp; omega, ?_⟩
                intro b hb
                have hb2 : b ≠ s.next := by have := hInv.1; omega
                simp [updateHeap, hb2]
                exact hInv.2 b hb
              have hkv : ∀ kv ∈ kvs, ((∀ b, Prod.fst kv = HVal.ref b → b < n0) ∧
                  (∀ u, TReach H0 (Prod.fst kv) u → matchH H0 ci u = false)) ∧
                  ((∀ b, Prod.snd kv = HVal.ref b → b < n0) ∧
                  (∀ u, TReach H0 (Prod.snd kv) u → matchH H0 ci u = false)) := by
                intro kv hkv2
                constructor
                · refine hkids kv.1 ?_
                  simp [tcellChildren]
                  exact .inl ⟨kv.2, by simp [hkv2]⟩
                · refine hkids kv.2 ?_
                  simp [tcellChildren]
                  exact .inr ⟨kv.1, by simp [hkv2]⟩
              have hout := reconKVsSt_pres _ H0 n0 ci
                (fun x s r s2 hx1 hx2 hx3 hx4 => ih x s r s2 hx1 hx2 hx3 hx4)
                kvs _ ch items s3 hInv1 hkv hrl
              by_cases hch : ch = true
              · rw [hch] at h
                simp at h
                obtain ⟨hr, hs⟩ := h
                rw [← hs]
                refine ⟨by simp [hout.1], ⟨by simpa using hout.2.1, ?_⟩⟩
                intro b hb
                have hb2 : b ≠ s.next := by have := hInv.1; omega
                simp [updateHeap, hb2]
                exact hout.2.2 b hb
              · simp only [Bool.not_eq_true] at hch
                rw [hch] at h
                simp at h
                obtain ⟨hr, hs⟩ := h
                rw [← hs]
                exact ⟨by simp [hout.1], ⟨hout.2.1, hout.2.2⟩⟩

/-- The classinfo test for `int` (`isinstance(x, int)` on this grammar). -/
def isIntK : TClassInfo := fun k => match k with
  | .intK => true
  | _ => false

/-- The transform function of claim C3: multiply an int by ten. -/
def mulTenT : HVal → HVal := fun v => match v with
  | .prim (.pint n) => .prim (.pint (n * 10))
  | _ => v

/-- The transform function of claim C2: add one to an int. -/
def addOneT : HVal → HVal := fun v => match v with
  | .prim (.pint n) => .prim (.pint (n + 1))
  | _ => v

/-- The heap of claim C3: the self-referential list `L = [1]; L.append(L)`
at address 0. -/
def c3HeapT : THeap := mkTHeap [(0, .list [.prim (.pint 1), .ref 0])]

/-- Claim C3.  For the self-referential list `L = [1]; L.append(L)`, the
call `transform_instances_inside_composite_object(L, int, lambda x: x*10)`
terminates (the fueled run returns a value, with no error), and returns a
new list `L2` (address 1) with `L2[0] == 10` and `L2[1] is L2` (its second
element is a reference to address 1 itself), while the original `L` at
address 0 still holds `[1, L]`. -/
theorem c3_cycle_tolerance :
    (transformInstancesInsideCompositeObject c3HeapT 1 (.ref 0) isIntK mulTenT
        true 10).map (fun rs => (rs.1, rs.2.heap 1, rs.2.heap 0)) =
    some (.ref 1, some (.list [.prim (.pint 10), .ref 1]),
          some (.list [.prim (.pint 1), .ref 0])) := rfl

/-- The heap of the C2 counterexample: a tuple (address 0) whose element is
a list (address 1) containing the tuple again and the int 1 — a reference
cycle through an immutable container. -/
def c2HeapT : THeap := mkTHeap [(0, .tuple [.ref 1]), (1, .list [.ref 0, .prim (.pint 1)])]

/-- Claim C2 (counterexample).  The claim says every object identity
reachable from the root is assigned exactly one reconstructed value, so two
references to the same original object always resolve to the same rebuilt
object.  For a changed immutable container on a cycle this fails: the tuple
at address 0 is rebuilt as address 3, but the placeholder recorded before
recursing was the *original* tuple, so the in-cycle reference inside the
rebuilt list (address 2) still resolves to address 0 — the same original
identity 0 resolves both to `ref 3` (at the root) and to `ref 0` (inside
the output), and these are different objects. -/
theorem c2_identity_sharing_counterexample :
    (transformInstancesInsideCompositeObject c2HeapT 2 (.ref 0) isIntK mulTenT
        true 10).map (fun rs => (rs.1, rs.2.heap 3, rs.2.heap 2)) =
      some (.ref 3, some (.tuple [.ref 2]),
            some (.list [.ref 0, .prim (.pint 10)])) ∧
    HVal.ref 0 ≠ HVal.ref 3 :=
  ⟨rfl, by simp⟩

/-- The heap of the C2 positive instance: `shared = {"k": 1}` at address 0
and `root = [shared, shared]` at address 1. -/
def c2bHeapT : THeap := mkTHeap
  [(0, .dict [(.prim (.pstr "k"), .prim (.pint 1))]), (1, .list [.ref 0, .ref 0])]

/-- Claim C2 (amended).  Once an object identity has a value recorded in the
`seen_ids` map, every later resolution of that identity during the call
returns the recorded value, so two references to the same original object
resolve to the same rebuilt object whenever the recorded value is final —
which holds for mutable containers and transformed targets, but not for a
changed immutable container on a reference cycle, whose pre-recursion
placeholder is the original object.  In particular, for
`shared = {"k": 1}; root = [shared, shared]`, transforming ints with
`x + 1` yields a new list (address 2) whose two elements are the *same*
rebuilt dict (address 3), equal to `{"k": 2}`. -/
theorem c2_identity_sharing :
    (∀ (ci : TClassInfo) (fn : HVal → HVal) (deep : Bool) (f : Nat) (s : TSt)
        (a : Nat) (r : HVal), s.seen a = some r →
        reconstruct ci fn deep (f + 1) (.ref a) s = some (r, s)) ∧
    (transformInstancesInsideCompositeObject c2bHeapT 2 (.ref 1) isIntK addOneT
        true 10).map (fun rs => (rs.1, rs.2.heap 2, rs.2.heap 3)) =
      some (.ref 2, some (.list [.ref 3, .ref 3]),
            some (.dict [(.prim (.pstr "k"), .prim (.pint 2))])) := by
  constructor
  · intro ci fn deep f s a r h
    simp [reconstruct, h]
  · rfl

/-- A state whose `seen_ids` memo already maps identity 0 to `ref 5`. -/
def c2WitSt : TSt :=
  ⟨mkTHeap [], 0, fun b => if b = 0 then some (.ref 5) else Option.none, false⟩

/-- Witness for the memo-stability part of `c2_identity_sharing`. -/
theorem c2_identity_sharing_witness :
    reconstruct isIntK addOneT true 1 (.ref 0) c2WitSt = some (.ref 5, c2WitSt) :=
  c2_identity_sharing.1 isIntK addOneT true 0 c2WitSt 0 (.ref 5) rfl

/-- Claim C4.  For every root object and every classinfo such that no value
reachable from the root matches classinfo,
`transform_instances_inside_composite_object` returns the original root
object itself (by identity: the very same value, untouched), because the
`any_replacements` flag is never set.  The side conditions say the input
heap is closed below the bound `n0` and that the fueled run finished. -/
theorem c4_noop_stability (H0 : THeap) (n0 : Nat) (root : HVal)
    (ci : TClassInfo) (fn : HVal → HVal) (deep : Bool) (f : Nat) (out : HVal)
    (s2 : TSt)
    (hC : ∀ a c, H0 a = some c → ∀ w ∈ tcellChildren c, ∀ b,
      w = HVal.ref b → b < n0)
    (hBased : ∀ b, root = HVal.ref b → b < n0)
    (hNR : ∀ u, TReach H0 root u → matchH H0 ci u = false)
    (hrun : transformInstancesInsideCompositeObject H0 n0 root ci fn deep f =
      some (out, s2)) : out = root := by
  unfold transformInstancesInsideCompositeObject at hrun
  cases hrec : reconstruct ci fn deep f root ⟨H0, n0, fun _ => Option.none, false⟩ with
  | none => rw [hrec] at hrun; simp at hrun
  | some rs =>
    obtain ⟨r, s1⟩ := rs
    rw [hrec] at hrun
    simp at hrun
    have hpres := reconstruct_noMatch H0 n0 ci fn deep hC f root
      ⟨H0, n0, fun _ => Option.none, false⟩ r s1
      ⟨Nat.le_refl n0, fun a ha => rfl⟩ hBased hNR hrec
    have hfl : s1.anyRepl = false := hpres.1
    rw [hfl] at hrun
    simp at hrun
    exact hrun.1.symm

/-- The heap of the C4 witness: a list holding the int 1. -/
def c4HeapT : THeap := mkTHeap [(0, .list [.prim (.pint 1)])]

/-- The classinfo test for `str`: matches nothing in the C4 witness heap. -/
def isStrK : TClassInfo := fun k => match k with
  | .strK => true
  | _ => false

/-- Witness for `c4_noop_stability`: transforming `str` instances inside
`[1]` returns the original list object itself. -/
theorem c4_noop_stability_witness :
    ∃ s2, transformInstancesInsideCompositeObject c4HeapT 1 (.ref 0) isStrK
      addOneT true 5 = some (.ref 0, s2) := by
  obtain ⟨out, s2, hrun⟩ : ∃ out s2,
      transformInstancesInsideCompositeObject c4HeapT 1 (.ref 0) isStrK
        addOneT true 5 = some (out, s2) := ⟨_, _, rfl⟩
  have hC : ∀ a c, c4HeapT a = some c → ∀ w ∈ tcellChildren c, ∀ b,
      w = HVal.ref b → b < 1 := by
    intro a c hac w hw b hb
    by_cases h0 : a = 0
    · subst h0
      have hc : c = .list [.prim (.pint 1)] := by
        simpa [c4HeapT, mkTHeap] using hac.symm
      subst hc
      simp [tcellChildren] at hw
      subst hw
      simp at hb
    · simp [c4HeapT, mkTHeap, h0] at hac
  have hBased : ∀ b, (HVal.ref 0 : HVal) = HVal.ref b → b < 1 := by
    intro b hb
    cases hb
    omega
  have hNR : ∀ u, TReach c4HeapT (.ref 0) u → matchH c4HeapT isStrK u = false := by
    intro u hu
    cases hu with
    | refl => rfl
    | step a c w u hlk hw hre =>
      have hc : c = .list [.prim (.pint 1)] := by
        simpa [c4HeapT, mkTHeap] using hlk.symm
      subst hc
      simp [tcellChildren] at hw
      subst hw
      cases hre with
      | refl => rfl
  have hout := c4_noop_stability c4HeapT 1 (.ref 0) isStrK addOneT true 5 out s2
    hC hBased hNR hrun
  exact ⟨s2, hout ▸ hrun⟩

/-- Claim C10.  In `reconstruct`, the classinfo match test is applied before
the atomic-type early return, so an atomic value — here an `int`, which the
atomics registry always contains — whose type matches classinfo is passed to
`transform_fn` and replaced by its result, and `any_replacements` is set;
being atomic never exempts a value from transformation.  Stated for any
transform function that returns a primitive (so the deep pass over the
result's attributes is the identity), any state and either depth mode. -/
theorem c10_match_before_atomic (ci : TClassInfo) (fn : HVal → HVal)
    (deep : Bool) (f : Nat) (s : TSt) (n : Int) (q : HPrim)
    (hci : ci PyKind.intK = true) (hfn : fn (.prim (.pint n)) = .prim q) :
    reconstruct ci fn deep (f + 1) (.prim (.pint n)) s =
      some (.prim q, { s with anyRepl := true }) := by
  cases deep <;> simp [reconstruct, primKind, hci, hfn, reconAttrs]

/-- A fresh initial state over the empty heap. -/
def c10WitSt : TSt := ⟨mkTHeap [], 0, fun _ => Option.none, false⟩

/-- Witness for `c10_match_before_atomic`: the atomic int 1 matches
classinfo `int` and is replaced by `2 = 1 + 1`. -/
theorem c10_match_before_atomic_witness :
    reconstruct isIntK addOneT true 3 (.prim (.pint 1)) c10WitSt =
      some (.prim (.pint 2), { c10WitSt with anyRepl := true }) :=
  c10_match_before_atomic isIntK addOneT true 2 c10WitSt 1 (.pint 2) rfl rfl

/-! ## Stack-based traversal model (claims C5, C7)

`_traverse` deduplicates *every* visited object by `id`, so the model gives
every value an address — including ints, whose sharing (CPython interning of
small constants) is what claim C5 turns on. -/

/-- Inspector heap cells: integers, lists, and custom objects with a class
name and named attributes. -/
inductive ICell where
  | int (n : Int)
  | list (xs : List Nat)
  | obj (cls : String) (attrs : List (String × Nat))
deriving DecidableEq, Repr

/-- The inspector heap. -/
abbrev IHeap := List (Nat × ICell)

/-- Address lookup (first match). -/
def ilookup : IHeap → Nat → Option ICell
  | [], _ => Option.none
  | (b, c) :: rest, a => if b = a then some c else ilookup rest a

/-- Model of `_traverse`: an explicit stack of iterators (modelled as the
lists of their remaining items, head of the stack = top) and the set of
visited identities.  Each step peeks the top iterator; an exhausted iterator
is popped; an already-seen item is skipped; otherwise the item is marked
seen, yielded (accumulated), and its children iterator — when the policy
returns one — is pushed on top. -/
def traverse (getChildren : Nat → Option (List Nat)) :
    Nat → List (List Nat) → List Nat → List Nat → Option (List Nat)
  | 0, _, _, _ => Option.none
  | _ + 1, [], _, acc => some acc.reverse
  | f + 1, [] :: stack, seen, acc => traverse getChildren f stack seen acc
  | f + 1, (x :: it) :: stack, seen, acc =>
    if x ∈ seen then traverse getChildren f (it :: stack) seen acc
    else
      match getChildren x with
      | some kids =>
        traverse getChildren f (kids :: it :: stack) (x :: seen) (x :: acc)
      | Option.none => traverse getChildren f (it :: stack) (x :: seen) (x :: acc)

/-- Run `_traverse` from a root. -/
def traverseRun (getChildren : Nat → Option (List Nat)) (root : Nat)
    (f : Nat) : Option (List Nat) :=
  traverse getChildren f [[root]] [] []

/-- The atomic test on inspector cells (`is_atomic_object`): ints are
registered builtin atomics; lists and custom objects are not. -/
def isAtomicI : ICell → Bool
  | .int _ => true
  | _ => false

/-- Whether a value is a traversable collection for `flatten`
(`_is_traversable_collection`): non-atomic and iterable — here, a list;
custom non-iterable objects and atomics are leaves. -/
def isTraversableI (H : IHeap) (a : Nat) : Bool :=
  match ilookup H a with
  | some (.list _) => true
  | _ => false

/-- The child-extraction policy of `flatten_nested_collection`: traversable
collections are iterated (a mapping would contribute keys and values; this
grammar has lists), everything else ends its branch. -/
def flatChildren (H : IHeap) (a : Nat) : Option (List Nat) :=
  match ilookup H a with
  | some (.list xs) => some xs
  | _ => Option.none

/-- Model of `flatten_nested_collection`: reject a non-iterable or atomic
root with a type error, then yield every visited object that is not a
traversable collection, in traversal order. -/
def flattenNestedCollection (H : IHeap) (root : Nat) (f : Nat) :
    Except SerErr (List Nat) :=
  if isTraversableI H root then
    match traverseRun (flatChildren H) root f with
    | some items => .ok (items.filter (fun a => !(isTraversableI H a)))
    | Option.none => .error .fuelOut
  else .error (.typeError "Expected a non-atomic Iterable as input")

/-- Children of a cell per `_get_children_from_object`: elements of a
standard iterable; attribute values of a custom non-iterable object. -/
def objChildrenI : ICell → List Nat
  | .int _ => []
  | .list xs => xs
  | .obj _ attrs => attrs.map Prod.snd

/-- The child-extraction policy of `find_instances_inside_composite_object`:
atomic objects have no children; with `deep_search=False` a matched object's
children are not explored; otherwise `_get_children_from_object`. -/
def findChildren (H : IHeap) (ci : ICell → Bool) (deep : Bool) (a : Nat) :
    Option (List Nat) :=
  match ilookup H a with
  | Option.none => Option.none
  | some c =>
    if isAtomicI c then Option.none
    else if !deep && ci c then Option.none
    else some (objChildrenI c)

/-- Model of `find_instances_inside_composite_object`: traverse with the
find policy and yield the visited objects whose type matches classinfo
(abstracted to a predicate on cells). -/
def findInstancesInsideCompositeObject (H : IHeap) (ci : ICell → Bool)
    (deep : Bool) (root : Nat) (f : Nat) : Except SerErr (List Nat) :=
  match traverseRun (findChildren H ci deep) root f with
  | some items => .ok (items.filter (fun a =>
      match ilookup H a with
      | some c => ci c
      | Option.none => false))
  | Option.none => .error .fuelOut

/-- Heap for the first C5 scenario: ints 1 and 2, one inner list holding
them, and an outer list containing that same inner list object twice. -/
def c5SameHeap : IHeap :=
  [(0, .int 1), (1, .int 2), (2, .list [0, 1]), (3, .list [2, 2])]

/-- Heap for the literal `[[1, 2], [1, 2]]` as CPython builds it: two
distinct (but equal) inner lists sharing the same interned int objects. -/
def c5SharedIntsHeap : IHeap :=
  [(0, .int 1), (1, .int 2), (2, .list [0, 1]), (3, .list [0, 1]),
   (4, .list [2, 3])]

/-- Heap for two distinct-but-equal inner lists whose int elements are also
distinct objects. -/
def c5DistinctHeap : IHeap :=
  [(0, .int 1), (1, .int 2), (2, .list [0, 1]), (3, .int 1), (4, .int 2),
   (5, .list [3, 4]), (6, .list [2, 5])]

/-- Claim C5 (counterexample).  The claim asserts that for two
distinct-but-equal inner lists each list is traversed and the sequence
`1, 2, 1, 2` is yielded (four leaves, in some order).  In CPython the
literal `[[1, 2], [1, 2]]` shares the interned int objects between the two
lists, and `_traverse`'s identity set suppresses *every* revisited object —
leaves included — so only the two addresses of `1` and `2` are yielded:
two leaves, not four. -/
theorem c5_flatten_dedup_counterexample :
    (flattenNestedCollection c5SharedIntsHeap 4 30).map
      (fun as => as.map (ilookup c5SharedIntsHeap)) =
      .ok [some (.int 1), some (.int 2)] ∧
    (flattenNestedCollection c5SharedIntsHeap 4 30).map List.length = .ok 2 :=
  ⟨rfl, rfl⟩

/-- Claim C5 (amended).  `flatten_nested_collection` deduplicates by object
identity, and the deduplication applies to every visited object including
leaves: with the same inner list object appearing twice, `1` and `2` are
yielded once each; with two distinct-but-equal inner lists both lists are
traversed and each *distinct element object* is yielded once — the sequence
`1, 2, 1, 2` when the elements of the two lists are themselves distinct
objects, but `1, 2` when the element objects are shared between the lists
(as with CPython's interned small-int constants in `[[1, 2], [1, 2]]`). -/
theorem c5_flatten_dedup :
    (flattenNestedCollection c5SameHeap 3 30).map
      (fun as => as.map (ilookup c5SameHeap)) =
      .ok [some (.int 1), some (.int 2)] ∧
    (flattenNestedCollection c5SharedIntsHeap 4 30).map
      (fun as => as.map (ilookup c5SharedIntsHeap)) =
      .ok [some (.int 1), some (.int 2)] ∧
    (flattenNestedCollection c5DistinctHeap 6 30).map
      (fun as => as.map (ilookup c5DistinctHeap)) =
      .ok [some (.int 1), some (.int 2), some (.int 1), some (.int 2)] :=
  ⟨rfl, rfl, rfl⟩

/-- The classinfo test for the `Wrapper` class of claim C7. -/
def isWrapperI : ICell → Bool
  | .obj cls _ => cls == "Wrapper"
  | _ => false

/-- Heap of claim C7: `Wrapper(Wrapper(Wrapper(5)))` — three wrapper objects
whose attribute `v` chains down to the int 5. -/
def c7Heap : IHeap :=
  [(0, .obj "Wrapper" [("v", 1)]), (1, .obj "Wrapper" [("v", 2)]),
   (2, .obj "Wrapper" [("v", 3)]), (3, .int 5)]

/-- Claim C7.  On `Wrapper(Wrapper(Wrapper(5)))` with `classinfo=Wrapper`:
with `deep_search=True` all three wrapper instances are yielded (traversal
continues inside matched objects); with `deep_search=False` only the
outermost wrapper is yielded (a matched object's children are not
explored). -/
theorem c7_deep_search :
    findInstancesInsideCompositeObject c7Heap isWrapperI true 0 20 =
      .ok [0, 1, 2] ∧
    findInstancesInsideCompositeObject c7Heap isWrapperI false 0 20 =
      .ok [0] :=
  ⟨rfl, rfl⟩

end Mixinforge
